import Mathlib

/-!
Verification of the pdf-price-search repository core: a shallow embedding of
the domain value objects (`Zone`, `Weight`, `PriceQuery`), the `ShippingService`
aggregate, the query parser (comma and space grammars), the service matcher,
the table extractor row loop, and the search orchestrator, together with
theorems settling the frozen claims about them.

Strings are modelled as `List Char`; Python `Decimal` values are modelled by
`Dec` (an integer mantissa with a count of fractional digits), which captures
both the numeric value and the distinct textual representations (`"3"` vs
`"3.0"`) that the code's price-table keys rely on.  Python dictionaries are
modelled as association lists with first-occurrence lookup and in-place
update, matching insertion-order semantics.
-/

set_option autoImplicit false

/-- Strings of the embedded programs: lists of characters. -/
abbrev Str := List Char

/-- Convert a Lean string literal into the embedded string type. -/
def str (s : String) : Str := s.toList

/-- Python regex `\s` restricted to ASCII: space, tab, newline, carriage
return, vertical tab, form feed.  The sources only meet ASCII whitespace. -/
def isSpaceC (c : Char) : Bool :=
  c.toNat = 32 || c.toNat = 9 || c.toNat = 10 || c.toNat = 13 ||
  c.toNat = 11 || c.toNat = 12

/-- ASCII decimal digit test, Python regex `\d` on ASCII input. -/
def isDigitC (c : Char) : Bool :=
  48 ≤ c.toNat && c.toNat ≤ 57

/-- ASCII lower-casing, the effect of Python `str.lower()` on ASCII text. -/
def asciiLower (c : Char) : Char :=
  if 65 ≤ c.toNat && c.toNat ≤ 90 then Char.ofNat (c.toNat + 32) else c

/-- Python `str.strip()`: drop leading and trailing whitespace. -/
def pyStrip (l : Str) : Str :=
  ((l.dropWhile isSpaceC).reverse.dropWhile isSpaceC).reverse

/-- Numeric value of a digit character. -/
def digitVal (c : Char) : Nat := c.toNat - 48

/-- Python `int` applied to a string of decimal digits. -/
def digitsToNat (l : Str) : Nat :=
  l.foldl (fun a c => 10 * a + digitVal c) 0

/-- Model of a Python `Decimal`: `mant / 10 ^ exp`, keeping the exponent so
that distinct textual forms of the same value (for example `"3"` as `⟨3, 0⟩`
and `"3.0"` as `⟨30, 1⟩`) stay distinguishable, exactly as `Decimal("3")` and
`Decimal("3.0")` have different `str` forms but equal numeric values. -/
structure Dec where
  mant : Int
  exp : Nat
deriving DecidableEq, Repr

/-- Numeric value of a `Dec` as a rational. -/
def Dec.val (d : Dec) : ℚ := (d.mant : ℚ) / (10 : ℚ) ^ d.exp

/-- Numeric equality of two `Dec`s, the embedding of Python's
`float(key) == weight_float` comparison between numerically equal decimal
texts (cross-multiplied so it is exact). -/
def Dec.eqVal (a b : Dec) : Bool :=
  a.mant * 10 ^ b.exp == b.mant * 10 ^ a.exp

/-- Zone value object: `zone.py` stores the validated integer. -/
structure ZoneV where
  value : Nat
deriving DecidableEq, Repr

/-- Failure modes of `Zone.__init__` / `Zone.parse`
(`InvalidZoneException` reasons). -/
inductive ZoneErr where
  | notInRange (v : Nat)
  | emptyInput
  | badFormat
deriving DecidableEq, Repr

/-- Embedding of `Zone.__init__`: accept integers in `[MIN_ZONE, MAX_ZONE]`
= `[1, 8]`, otherwise raise `InvalidZoneException`. -/
def ZoneV.make (v : Nat) : Except ZoneErr ZoneV :=
  if 1 ≤ v ∧ v ≤ 8 then .ok ⟨v⟩ else .error (.notInRange v)

/-- Regex `^z(\d+)$` (after lower-casing), returning the digit group. -/
def zonePat1 (l : Str) : Option Str :=
  match l with
  | [] => none
  | c :: rest =>
    if c == 'z' && !rest.isEmpty && rest.all isDigitC then some rest else none

/-- Regex `^zone\s*(\d+)$` (after lower-casing), returning the digit group. -/
def zonePat2 (l : Str) : Option Str :=
  if (str "zone").isPrefixOf l then
    let ds := (l.drop 4).dropWhile isSpaceC
    if !ds.isEmpty && ds.all isDigitC then some ds else none
  else none

/-- Regex `^(\d+)$`, returning the digit group. -/
def zonePat3 (l : Str) : Option Str :=
  if !l.isEmpty && l.all isDigitC then some l else none

/-- The three patterns of `Zone.parse`, tried in source order. -/
def zonePatternDigits (l : Str) : Option Str :=
  match zonePat1 l with
  | some ds => some ds
  | none =>
    match zonePat2 l with
    | some ds => some ds
    | none => zonePat3 l

/-- Embedding of `Zone.parse` on strings: strip, reject empty input, try the
three case-insensitive patterns, convert the digit group, range-check. -/
def ZoneV.parse (zone_str : Str) : Except ZoneErr ZoneV :=
  let cleaned := pyStrip zone_str
  if cleaned.isEmpty then .error .emptyInput
  else
    match zonePatternDigits (cleaned.map asciiLower) with
    | some ds => ZoneV.make (digitsToNat ds)
    | none => .error .badFormat

/-- Weight value object: `weight.py` stores the validated positive decimal. -/
structure WeightV where
  dec : Dec
deriving DecidableEq, Repr

/-- Failure modes of `Weight.__init__` / `Weight.parse`
(`InvalidWeightException` reasons). -/
inductive WeightErr where
  | notPositive
  | emptyInput
  | badFormat
  | badDecimal
deriving DecidableEq, Repr

/-- Embedding of `Weight.__init__` on decimals: reject values `≤ 0`. -/
def WeightV.make (d : Dec) : Except WeightErr WeightV :=
  if d.mant ≤ 0 then .error .notPositive else .ok ⟨d⟩

/-- Character class `[\d.]` of the weight regex. -/
def isDigitOrDot (c : Char) : Bool := isDigitC c || c == '.'

/-- Python `Decimal(text)` restricted to strings of digits and dots (the only
strings the weight regex group can produce): at most one dot and at least one
digit; the exponent records the number of fractional digits. -/
def parseDec (l : Str) : Option Dec :=
  let ip := l.takeWhile isDigitC
  let rest := l.drop ip.length
  match rest with
  | [] => if ip.isEmpty then none else some ⟨(digitsToNat ip : Int), 0⟩
  | c :: fp =>
    if c == '.' && fp.all isDigitC && !(ip.isEmpty && fp.isEmpty) then
      some ⟨(digitsToNat (ip ++ fp) : Int), fp.length⟩
    else none

/-- Embedding of `Weight.parse` on strings: strip, reject empty, match
`^([\d.]+)\s*(lb|lbs|pound|pounds)?$` case-insensitively, convert the numeric
group with `Decimal`, then validate positivity. -/
def WeightV.parse (weight_str : Str) : Except WeightErr WeightV :=
  let cleaned := pyStrip weight_str
  if cleaned.isEmpty then .error .emptyInput
  else
    let lowered := cleaned.map asciiLower
    let num := lowered.takeWhile isDigitOrDot
    let rest := lowered.drop num.length
    let unit := rest.dropWhile isSpaceC
    if num.isEmpty then .error .badFormat
    else if !(unit == [] || unit == str "lb" || unit == str "lbs" ||
              unit == str "pound" || unit == str "pounds") then .error .badFormat
    else
      match parseDec num with
      | some d => WeightV.make d
      | none => .error .badDecimal

/-- First-occurrence lookup in an association list (Python `dict` access). -/
def lookupAssoc {α β : Type} [DecidableEq α] : List (α × β) → α → Option β
  | [], _ => none
  | (k, v) :: rest, a => if k = a then some v else lookupAssoc rest a

/-- In-place update or append (Python `dict[k] = v`): replace the value at the
first occurrence of the key, else append the pair, preserving insertion
order. -/
def updAssoc {α β : Type} [DecidableEq α] : List (α × β) → α → β → List (α × β)
  | [], k, v => [(k, v)]
  | (k₁, v₁) :: rest, k, v =>
    if k₁ = k then (k, v) :: rest else (k₁, v₁) :: updAssoc rest k v

/-- The `ShippingService` aggregate: canonical name, alias list, and the
nested price table `zone → (weight key → price)`.  Weight keys are the `Dec`
representations standing for the `str(weight.value)` strings of the source
(two keys are the same string exactly when they are the same `Dec`). -/
structure ShippingServiceM where
  service_name : Str
  service_variants : List Str
  price_table : List (Nat × List (Dec × Dec))
deriving DecidableEq, Repr

/-- The `PriceNotFoundException` of `get_price`. -/
inductive PriceErr where
  | priceNotFound (service : Str) (zone : Nat) (weight : Dec)
deriving DecidableEq, Repr

/-- Embedding of `ShippingService.get_price`: exact weight-key lookup first,
then the linear scan comparing numeric values of stored keys. -/
def ShippingServiceM.get_price (s : ShippingServiceM) (zone : ZoneV)
    (weight : WeightV) : Except PriceErr Dec :=
  match lookupAssoc s.price_table zone.value with
  | none => .error (.priceNotFound s.service_name zone.value weight.dec)
  | some zone_prices =>
    match lookupAssoc zone_prices weight.dec with
    | some price => .ok price
    | none =>
      match zone_prices.find? (fun kv => kv.1.eqVal weight.dec) with
      | some kv => .ok kv.2
      | none => .error (.priceNotFound s.service_name zone.value weight.dec)

/-- The `ValueError` raised by `set_price` on a negative price. -/
inductive SetPriceErr where
  | negativePrice (p : Dec)
deriving DecidableEq, Repr

/-- Embedding of `ShippingService.set_price`: reject negative prices before
touching the table, then ensure the zone entry exists and store the price
under the weight's canonical key. -/
def ShippingServiceM.set_price (s : ShippingServiceM) (zone : ZoneV)
    (weight : WeightV) (price : Dec) : Except SetPriceErr ShippingServiceM :=
  if price.mant < 0 then .error (.negativePrice price)
  else
    let pt :=
      match lookupAssoc s.price_table zone.value with
      | none => s.price_table ++ [(zone.value, [(weight.dec, price)])]
      | some zone_prices =>
        updAssoc s.price_table zone.value (updAssoc zone_prices weight.dec price)
    .ok { s with price_table := pt }

/-- Embedding of `ShippingService.is_service_match`: case-insensitive
comparison of the stripped query against the canonical name and each
variant. -/
def ShippingServiceM.is_service_match (s : ShippingServiceM)
    (query_service : Str) : Bool :=
  let qn := (pyStrip query_service).map asciiLower
  (s.service_name.map asciiLower == qn) ||
    s.service_variants.any (fun v => v.map asciiLower == qn)

/-- The `PriceQuery` value object. -/
structure PriceQueryE where
  service_type : Str
  zone : ZoneV
  weight : WeightV
  packaging_type : Option Str
deriving DecidableEq, Repr

/-- The `ValueError` of `PriceQuery.__init__` on an empty service type. -/
inductive PQErr where
  | emptyService
deriving DecidableEq, Repr

/-- Embedding of `PriceQuery.__init__`: strip the service type (rejecting an
empty result) and normalise empty packaging text to `none`. -/
def PriceQueryE.make (service_type : Str) (zone : ZoneV) (weight : WeightV)
    (packaging_type : Option Str) : Except PQErr PriceQueryE :=
  let st := pyStrip service_type
  if st.isEmpty then .error .emptyService
  else
    let pk :=
      match packaging_type with
      | none => none
      | some p => let c := pyStrip p; if c.isEmpty then none else some c
    .ok ⟨st, zone, weight, pk⟩

/-- Failure modes of `QueryParser.parse` (`InvalidQueryException` reasons,
one constructor per distinct reason in the source). -/
inductive ParseErr where
  | emptyQuery
  | tooFewParts
  | tooManyParts
  | emptyService
  | invalidZone (e : ZoneErr)
  | invalidWeight (e : WeightErr)
  | noZone
  | noWeight
  | priceQueryError (e : PQErr)
deriving DecidableEq, Repr

/-- Python `str.split(",")`. -/
def splitComma : Str → List Str
  | [] => [[]]
  | c :: rest =>
    if c == ',' then [] :: splitComma rest
    else
      match splitComma rest with
      | [] => [[c]]
      | p :: ps => (c :: p) :: ps

/-- Embedding of `QueryParser._parse_comma_separated`: split on commas, trim,
enforce 3 or 4 parts, require a non-empty service part, then parse zone and
weight from parts 2 and 3. -/
def QueryParser.parse_comma_separated (query : Str) : Except ParseErr PriceQueryE :=
  let parts := (splitComma query).map pyStrip
  if parts.length < 3 then .error .tooFewParts
  else if parts.length > 4 then .error .tooManyParts
  else
    let service_type := parts.getD 0 []
    let zone_str := parts.getD 1 []
    let weight_str := parts.getD 2 []
    let packaging_type := if parts.length = 4 then some (parts.getD 3 []) else none
    if service_type.isEmpty then .error .emptyService
    else
      match ZoneV.parse zone_str with
      | .error e => .error (.invalidZone e)
      | .ok zone =>
        match WeightV.parse weight_str with
        | .error e => .error (.invalidWeight e)
        | .ok weight =>
          match PriceQueryE.make service_type zone weight packaging_type with
          | .error e => .error (.priceQueryError e)
          | .ok pq => .ok pq

/-- Run a position matcher at every start position, left to right, returning
the span of the leftmost match (Python `re.search`). -/
def searchFrom (f : Str → Option Nat) : Str → Nat → Option (Nat × Nat)
  | l, i =>
    match f l with
    | some n => some (i, i + n)
    | none =>
      match l with
      | [] => none
      | _ :: rest => searchFrom f rest (i + 1)

/-- Matcher for `(?:z|zone)\s*\d+` at one position of lower-cased text,
returning the matched length; the `z` alternative is attempted before
`zone`, as the regex engine does. -/
def zoneMatchLen (l : Str) : Option Nat :=
  match l with
  | [] => none
  | c :: rest =>
    if c == 'z' then
      let sp := rest.takeWhile isSpaceC
      let ds := (rest.drop sp.length).takeWhile isDigitC
      if !ds.isEmpty then some (1 + sp.length + ds.length)
      else
        match rest with
        | 'o' :: 'n' :: 'e' :: rest2 =>
          let sp2 := rest2.takeWhile isSpaceC
          let ds2 := (rest2.drop sp2.length).takeWhile isDigitC
          if !ds2.isEmpty then some (4 + sp2.length + ds2.length) else none
        | _ => none
    else none

/-- Python regex word character (`\w` on ASCII), used for `\b`. -/
def isWordChar (c : Char) : Bool :=
  (65 ≤ c.toNat && c.toNat ≤ 90) || (97 ≤ c.toNat && c.toNat ≤ 122) ||
    isDigitC c || c == '_'

/-- Try one unit alternative followed by a word boundary. -/
def tryUnit (u : Str) (l : Str) : Option Nat :=
  if u.isPrefixOf l then
    match l.drop u.length with
    | [] => some u.length
    | c :: _ => if isWordChar c then none else some u.length
  else none

/-- The alternation `(?:lb|lbs|pound|pounds)\b` in source order. -/
def unitMatch (l : Str) : Option Nat :=
  match tryUnit (str "lb") l with
  | some n => some n
  | none =>
    match tryUnit (str "lbs") l with
    | some n => some n
    | none =>
      match tryUnit (str "pound") l with
      | some n => some n
      | none => tryUnit (str "pounds") l

/-- Matcher for `[\d.]+\s*(?:lb|lbs|pound|pounds)\b` at one position of
lower-cased text, returning the matched length.  The greedy quantifiers are
deterministic here because the character classes are pairwise disjoint. -/
def weightMatchLen (l : Str) : Option Nat :=
  let dd := l.takeWhile isDigitOrDot
  if dd.isEmpty then none
  else
    let rest := l.drop dd.length
    let sp := rest.takeWhile isSpaceC
    match unitMatch (rest.drop sp.length) with
    | some u => some (dd.length + sp.length + u)
    | none => none

/-- Take the slice `[s, e)` of a string. -/
def sliceStr (l : Str) (s e : Nat) : Str := (l.drop s).take (e - s)

/-- A regex match object: span plus matched text.  As in Python, the span is
relative to the string that was searched, which for the weight search of
`_find_zone_and_weight` is a substring of the query. -/
structure ReMatch where
  start : Nat
  stop : Nat
  text : Str
deriving DecidableEq, Repr

/-- Embedding of `QueryParser._find_zone_and_weight`: find the zone token in
the whole query, then look for the weight token first in the text after the
zone match and otherwise in the text before it.  Spans of the weight match
are relative to the searched substring, exactly as in the source. -/
def QueryParser.find_zone_and_weight (query : Str) :
    Option ReMatch × Option ReMatch :=
  let lowered := query.map asciiLower
  match searchFrom zoneMatchLen lowered 0 with
  | none => (none, none)
  | some (zs, ze) =>
    let zm : ReMatch := ⟨zs, ze, sliceStr query zs ze⟩
    let remaining_after := lowered.drop ze
    match searchFrom weightMatchLen remaining_after 0 with
    | some (ws, we) => (some zm, some ⟨ws, we, sliceStr (query.drop ze) ws we⟩)
    | none =>
      let before_zone := lowered.take zs
      match searchFrom weightMatchLen before_zone 0 with
      | some (ws, we) => (some zm, some ⟨ws, we, sliceStr (query.take zs) ws we⟩)
      | none => (some zm, none)

/-- Embedding of `QueryParser._parse_space_separated`, including its use of
the weight match's raw span fields (which are relative to the searched
substring) in comparisons and slices of the full query string. -/
def QueryParser.parse_space_separated (query : Str) : Except ParseErr PriceQueryE :=
  match QueryParser.find_zone_and_weight query with
  | (none, _) => .error .noZone
  | (some _, none) => .error .noWeight
  | (some zm, some wm) =>
    let weight_before_zone := wm.start < zm.start
    let service_end := if weight_before_zone then wm.start else zm.start
    let service_type := pyStrip (query.take service_end)
    let weight_absolute_end := if weight_before_zone then zm.stop else zm.stop + wm.stop
    let packaging_type :=
      if weight_absolute_end < query.length then
        some (pyStrip (query.drop weight_absolute_end))
      else none
    let service_type := if service_type.isEmpty then str "Standard" else service_type
    match ZoneV.parse zm.text with
    | .error e => .error (.invalidZone e)
    | .ok zone =>
      match WeightV.parse wm.text with
      | .error e => .error (.invalidWeight e)
      | .ok weight =>
        match PriceQueryE.make service_type zone weight packaging_type with
        | .error e => .error (.priceQueryError e)
        | .ok pq => .ok pq

/-- Embedding of `QueryParser.parse`: strip, reject empty queries, dispatch
on the presence of a comma. -/
def QueryParser.parse (query : Str) : Except ParseErr PriceQueryE :=
  let q := pyStrip query
  if q.isEmpty then .error .emptyQuery
  else if q.contains ',' then QueryParser.parse_comma_separated q
  else QueryParser.parse_space_separated q

/-- Regex `[-._]` removal of `_normalize_service_name`. -/
def removePunct (l : Str) : Str :=
  l.filter (fun c => !(c == '-' || c == '.' || c == '_'))

/-- Regex substitution `\s+` → `" "`: replace every maximal whitespace run
with a single space. -/
def collapseWs : Str → Str
  | [] => []
  | [c] => if isSpaceC c then [' '] else [c]
  | c :: d :: rest =>
    if isSpaceC c then
      if isSpaceC d then collapseWs (d :: rest) else ' ' :: collapseWs (d :: rest)
    else c :: collapseWs (d :: rest)

/-- Absence of adjacent whitespace pairs, the shape `collapseWs` guarantees;
used to characterise already-normalized service-name text. -/
def noTwoSpaces : Str → Prop
  | [] => True
  | [_] => True
  | c :: d :: rest => ¬(isSpaceC c = true ∧ isSpaceC d = true) ∧ noTwoSpaces (d :: rest)

/-- Embedding of `ServiceMatcher._normalize_service_name`: lower-case, delete
hyphens, periods and underscores, collapse whitespace runs, strip. -/
def ServiceMatcher.normalize_service_name (name : Str) : Str :=
  if name.isEmpty then []
  else pyStrip (collapseWs (removePunct (name.map asciiLower)))

/-- Embedding of `ServiceMatcher._is_match`: first the aggregate's own
`is_service_match` on the normalized query, then normalized comparison of the
canonical name, then of each variant. -/
def ServiceMatcher.is_match (query_normalized : Str)
    (service : ShippingServiceM) : Bool :=
  service.is_service_match query_normalized ||
    (ServiceMatcher.normalize_service_name service.service_name == query_normalized) ||
    service.service_variants.any
      (fun v => ServiceMatcher.normalize_service_name v == query_normalized)

/-- Embedding of `ServiceMatcher.match_service`: normalize the query once and
return the first candidate, in list order, that `_is_match` accepts. -/
def ServiceMatcher.match_service (query_service : Str)
    (available_services : List ShippingServiceM) : Option ShippingServiceM :=
  let query_normalized := ServiceMatcher.normalize_service_name query_service
  available_services.find? (ServiceMatcher.is_match query_normalized)

/-- Modelled from the spec (section 4.5) for the refinement check of C9: the
normalization the spec describes, word for word — lowercasing, deleting
hyphens, periods and underscores, collapsing runs of whitespace to one
space, then trimming. -/
def specNormalizeName (name : Str) : Str :=
  pyStrip (collapseWs (removePunct (name.map asciiLower)))

/-- Modelled from the spec (section 4.5) for the refinement check of C9: a
candidate matches when its normalized canonical name or any normalized alias
equals the normalized query. -/
def specMatches (query : Str) (service : ShippingServiceM) : Bool :=
  specNormalizeName service.service_name == specNormalizeName query ||
    service.service_variants.any
      (fun v => specNormalizeName v == specNormalizeName query)

/-- Per-column price collection of `extract_weight_prices`: for each service
column whose index is inside the row, extract a price from that cell and
keep the parseable ones, in column order.  The cell-level price extractor
`ep` is a parameter standing for `_extract_price_from_cell`. -/
def TableExtractor.collectPrices (ep : Option Str → Str → Option Dec)
    (row : List (Option Str)) (service_columns : List (Nat × Str))
    (weight : Str) : List Dec :=
  service_columns.foldl
    (fun prices col =>
      match row.get? col.1 with
      | none => prices
      | some cell =>
        match ep cell weight with
        | some price => prices ++ [price]
        | none => prices) []

/-- Weight tokens of a data row: from the first cell, or from the second cell
when the first yields none.  The cell-level weight extractor `ew` stands for
`_extract_weights_from_cell`. -/
def TableExtractor.rowWeights (ew : Option Str → List Str)
    (row : List (Option Str)) : List Str :=
  let weights := ew (match row with | [] => none | cell :: _ => cell)
  if weights.isEmpty then
    match row with
    | _ :: cell2 :: _ => ew cell2
    | _ => weights
  else weights

/-- One data-row step of `extract_weight_prices`: rows without weights are
skipped, and a weight's prices are stored only when every service column
yielded a price. -/
def TableExtractor.processRow (ew : Option Str → List Str)
    (ep : Option Str → Str → Option Dec) (service_columns : List (Nat × Str))
    (acc : List (Str × List Dec)) (row : List (Option Str)) :
    List (Str × List Dec) :=
  let weights := TableExtractor.rowWeights ew row
  if weights.isEmpty then acc
  else
    weights.foldl
      (fun acc₁ weight =>
        let prices := TableExtractor.collectPrices ep row service_columns weight
        if prices.length = service_columns.length then updAssoc acc₁ weight prices
        else acc₁) acc

/-- Embedding of `TableExtractor.extract_weight_prices`, parameterised by the
two cell-level extractors (pure string-processing helpers of the source whose
content the row-acceptance logic never inspects). -/
def TableExtractor.extract_weight_prices (ew : Option Str → List Str)
    (ep : Option Str → Str → Option Dec) (table : List (List (Option Str)))
    (service_columns : List (Nat × Str)) (skip_header_rows : Nat) :
    List (Str × List Dec) :=
  if table.length ≤ skip_header_rows then []
  else
    (table.drop skip_header_rows).foldl
      (TableExtractor.processRow ew ep service_columns) []

/-- Error messages of `SearchResponse.error_response`, one constructor per
distinct exception the `search` flow turns into an error response. -/
inductive ErrMsg where
  | invalidQuery (e : ParseErr)
  | dataNotLoaded
  | serviceNotAvailable (service : Str)
  | priceNotFound (e : PriceErr)
deriving DecidableEq, Repr

/-- The `SearchResponse` DTO (timing field omitted: wall-clock time is not
modelled). -/
structure SearchResponseE where
  success : Bool
  price : Option Dec
  service : Option Str
  zone : Option Nat
  weight : Option Dec
  error_message : Option ErrMsg
deriving DecidableEq, Repr

/-- `SearchResponse.error_response`. -/
def SearchResponseE.error_response (e : ErrMsg) : SearchResponseE :=
  ⟨false, none, none, none, none, some e⟩

/-- `SearchResponse.success_response`. -/
def SearchResponseE.success_response (price : Dec) (service : Str)
    (zone : Nat) (weight : Dec) : SearchResponseE :=
  ⟨true, some price, some service, some zone, some weight, none⟩

/-- The `SearchRequest` DTO (the unused `source_pdf` field is omitted). -/
structure SearchRequest where
  query : Str
  use_cache : Bool
deriving Repr

/-- Result of one `search` call, instrumented with how many times the
service matcher was invoked and how many price lookups ran, so that
"no further work after a parse failure" is expressible. -/
structure SearchOutcome where
  response : SearchResponseE
  matcher_calls : Nat
  price_lookups : Nat
deriving DecidableEq, Repr

/-- `PriceSearchService._make_cache_key`. -/
def cacheKey (query : Str) : Str :=
  str "search:" ++ (pyStrip query).map asciiLower

/-- Embedding of `PriceSearchService.search`: data-loaded check, cache
check, parse, service matching with the generic-sentinel fallback, then the
price lookup.  The repository is its list of services; the cache is a
lookup function when present. -/
def PriceSearchService.search (services : List ShippingServiceM)
    (cache : Option (Str → Option SearchResponseE)) (request : SearchRequest) :
    SearchOutcome :=
  if services.length = 0 then
    ⟨SearchResponseE.error_response .dataNotLoaded, 0, 0⟩
  else
    match (if request.use_cache then
            cache.bind (fun f => f (cacheKey request.query))
          else none) with
    | some cached => ⟨cached, 0, 0⟩
    | none =>
      match QueryParser.parse request.query with
      | .error e => ⟨SearchResponseE.error_response (.invalidQuery e), 0, 0⟩
      | .ok price_query =>
        match services with
        | [] => ⟨SearchResponseE.error_response .dataNotLoaded, 0, 0⟩
        | s₀ :: _ =>
          let matched₀ :=
            ServiceMatcher.match_service price_query.service_type services
          let matched :=
            match matched₀ with
            | some m => some m
            | none =>
              let st := price_query.service_type.map asciiLower
              if st == str "standard" || st == str "default" || st == str "generic" then
                some s₀
              else none
          match matched with
          | none =>
            ⟨SearchResponseE.error_response
              (.serviceNotAvailable price_query.service_type), 1, 0⟩
          | some matched_service =>
            match matched_service.get_price price_query.zone price_query.weight with
            | .error e =>
              ⟨SearchResponseE.error_response (.priceNotFound e), 1, 1⟩
            | .ok price =>
              ⟨SearchResponseE.success_response price
                matched_service.service_name price_query.zone.value
                price_query.weight.dec, 1, 1⟩

/-- Observable post-state of a `set_price` call for a caller that catches the
exception: on an error the aggregate is unchanged, mirroring that the source
raises before performing any table mutation. -/
def ShippingServiceM.set_price_post (s : ShippingServiceM) (zone : ZoneV)
    (weight : WeightV) (price : Dec) : ShippingServiceM :=
  match s.set_price zone weight price with
  | .ok s' => s'
  | .error _ => s

/-- Concrete cell-level weight extractor used to instantiate the table
extractor in witnesses: a cell holds one weight token or nothing. -/
def ewOne (cell : Option Str) : List Str :=
  match cell with
  | none => []
  | some l => if l.isEmpty then [] else [l]

/-- Concrete cell-level price extractor used to instantiate the table
extractor in witnesses: a cell of digits is a whole-dollar price. -/
def epDigits (cell : Option Str) (_weight : Str) : Option Dec :=
  match cell with
  | none => none
  | some l => if !l.isEmpty && l.all isDigitC then some ⟨(digitsToNat l : Int), 0⟩ else none

/-! Helper lemmas about the character classes and `pyStrip`. -/

theorem Dec.eqVal_iff_val {a b : Dec} : a.eqVal b = true ↔ a.val = b.val := by
  unfold Dec.eqVal Dec.val
  rw [beq_iff_eq, div_eq_div_iff (by positivity) (by positivity)]
  constructor
  · intro h
    exact_mod_cast congrArg (fun z : ℤ => (z : ℚ)) h
  · intro h
    exact_mod_cast h

theorem Dec.eqVal_refl (a : Dec) : a.eqVal a = true := by
  simp [Dec.eqVal_iff_val]

theorem Dec.eqVal_symm {a b : Dec} (h : a.eqVal b = true) : b.eqVal a = true := by
  rw [Dec.eqVal_iff_val] at h ⊢
  exact h.symm

theorem Dec.eqVal_trans {a b c : Dec} (h₁ : a.eqVal b = true)
    (h₂ : b.eqVal c = true) : a.eqVal c = true := by
  rw [Dec.eqVal_iff_val] at h₁ h₂ ⊢
  exact h₁.trans h₂

theorem isSpaceC_eq_false_of_isDigitC {c : Char} (h : isDigitC c = true) :
    isSpaceC c = false := by
  simp only [isDigitC, Bool.and_eq_true, decide_eq_true_eq] at h
  simp only [isSpaceC, Bool.or_eq_false_iff, decide_eq_false_iff_not]
  omega

theorem asciiLower_of_isDigitC {c : Char} (h : isDigitC c = true) :
    asciiLower c = c := by
  simp only [isDigitC, Bool.and_eq_true, decide_eq_true_eq] at h
  simp only [asciiLower, Bool.and_eq_true, decide_eq_true_eq]
  rw [if_neg]
  omega

theorem map_eq_self_of_fix {f : Char → Char} :
    ∀ {l : Str}, (∀ c ∈ l, f c = c) → l.map f = l
  | [], _ => rfl
  | c :: t, h => by
    simp only [List.map_cons, h c (by simp)]
    rw [map_eq_self_of_fix (fun d hd => h d (by simp [hd]))]

theorem dropWhile_eq_self_of_all {p : Char → Bool} {l : Str}
    (h : ∀ c ∈ l, p c = false) : l.dropWhile p = l := by
  cases l with
  | nil => rfl
  | cons a t => exact List.dropWhile_cons_of_neg (by simp [h a (by simp)])

theorem pyStrip_eq_self {l : Str} (h1 : l.dropWhile isSpaceC = l)
    (h2 : l.reverse.dropWhile isSpaceC = l.reverse) : pyStrip l = l := by
  unfold pyStrip
  rw [h1, h2, List.reverse_reverse]

theorem pyStrip_of_no_space {l : Str} (h : ∀ c ∈ l, isSpaceC c = false) :
    pyStrip l = l := by
  refine pyStrip_eq_self (dropWhile_eq_self_of_all h) (dropWhile_eq_self_of_all ?_)
  intro c hc
  exact h c (List.mem_reverse.mp hc)

theorem pyStrip_cons_concat {c d : Char} {m : Str} (hc : isSpaceC c = false)
    (hd : isSpaceC d = false) : pyStrip (c :: (m ++ [d])) = c :: (m ++ [d]) := by
  apply pyStrip_eq_self
  · exact List.dropWhile_cons_of_neg (by simp [hc])
  · have hrev : (c :: (m ++ [d])).reverse = d :: (m.reverse ++ [c]) := by simp
    rw [hrev]
    exact List.dropWhile_cons_of_neg (by simp [hd])

theorem dropWhile_dropWhile {p : Char → Bool} :
    ∀ (l : Str), (l.dropWhile p).dropWhile p = l.dropWhile p
  | [] => rfl
  | a :: t => by
    by_cases h : p a
    · rw [List.dropWhile_cons_of_pos h]
      exact dropWhile_dropWhile t
    · rw [List.dropWhile_cons_of_neg h, List.dropWhile_cons_of_neg h]

theorem head?_dropWhile {p : Char → Bool} :
    ∀ {l : Str} {a : Char}, (l.dropWhile p).head? = some a → p a = false
  | [], a => by simp
  | c :: t, a => by
    by_cases h : p c
    · rw [List.dropWhile_cons_of_pos h]
      exact head?_dropWhile (l := t)
    · rw [List.dropWhile_cons_of_neg h]
      intro he
      simp only [List.head?_cons, Option.some_inj] at he
      subst he
      simpa using h

theorem pyStrip_idem (l : Str) : pyStrip (pyStrip l) = pyStrip l := by
  set A := l.dropWhile isSpaceC with hA
  set B := A.reverse.dropWhile isSpaceC with hB
  have hps : pyStrip l = B.reverse := rfl
  apply pyStrip_eq_self
  · rw [hps]
    cases hBr : B.reverse with
    | nil => rfl
    | cons a t =>
      have hBa : B.getLast? = some a := by
        rw [← List.head?_reverse, hBr, List.head?_cons]
      have hBne : B ≠ [] := by
        intro hc
        rw [hc] at hBa
        simp at hBa
      have hsplit : A.reverse.takeWhile isSpaceC ++ B = A.reverse :=
        List.takeWhile_append_dropWhile isSpaceC A.reverse
      have hAa : A.head? = some a := by
        rw [← List.getLast?_reverse, ← hsplit,
          List.getLast?_append_of_ne_nil _ hBne, hBa]
      have haf : isSpaceC a = false := by
        apply head?_dropWhile (l := l)
        rw [← hA, hAa]
      exact List.dropWhile_cons_of_neg (by simp [haf])
  · rw [hps, List.reverse_reverse, hB]
    exact dropWhile_dropWhile A.reverse

/-! Association-list lemmas. -/

theorem lookupAssoc_none_iff {α β : Type} [DecidableEq α] :
    ∀ {l : List (α × β)} {k : α}, lookupAssoc l k = none ↔ ∀ kv ∈ l, kv.1 ≠ k
  | [], k => by simp [lookupAssoc]
  | (k₁, v₁) :: rest, k => by
    simp only [lookupAssoc]
    by_cases h : k₁ = k
    · simp [h]
    · rw [if_neg h]
      rw [lookupAssoc_none_iff]
      constructor
      · intro hr kv hkv
        rcases List.mem_cons.mp hkv with hkv | hm
        · rw [hkv]
          simpa using h
        · exact hr kv hm
      · intro hall kv hm
        exact hall kv (List.mem_cons_of_mem _ hm)

theorem lookupAssoc_append_left_none {α β : Type} [DecidableEq α] :
    ∀ {l : List (α × β)} (m : List (α × β)) {k : α},
      lookupAssoc l k = none → lookupAssoc (l ++ m) k = lookupAssoc m k
  | [], m, k, _ => rfl
  | (k₁, v₁) :: rest, m, k, h => by
    simp only [lookupAssoc, List.cons_append] at h ⊢
    by_cases hk : k₁ = k
    · rw [if_pos hk] at h
      exact absurd h (by simp)
    · rw [if_neg hk] at h ⊢
      exact lookupAssoc_append_left_none m h

theorem lookupAssoc_cons_self {α β : Type} [DecidableEq α] (k : α) (v : β)
    (rest : List (α × β)) : lookupAssoc ((k, v) :: rest) k = some v := by
  simp [lookupAssoc]

theorem lookupAssoc_updAssoc_self {α β : Type} [DecidableEq α] :
    ∀ (l : List (α × β)) (k : α) (v : β), lookupAssoc (updAssoc l k v) k = some v
  | [], k, v => by simp [updAssoc, lookupAssoc]
  | (k₁, v₁) :: rest, k, v => by
    by_cases h : k₁ = k
    · unfold updAssoc
      rw [if_pos h]
      simp [lookupAssoc]
    · unfold updAssoc
      rw [if_neg h]
      unfold lookupAssoc
      rw [if_neg h]
      exact lookupAssoc_updAssoc_self rest k v

theorem updAssoc_of_absent {α β : Type} [DecidableEq α] :
    ∀ {l : List (α × β)} {k : α} {v : β},
      lookupAssoc l k = none → updAssoc l k v = l ++ [(k, v)]
  | [], _, _, _ => rfl
  | (k₁, v₁) :: rest, k, v, h => by
    unfold lookupAssoc at h
    by_cases hk : k₁ = k
    · rw [if_pos hk] at h
      exact absurd h (by simp)
    · rw [if_neg hk] at h
      unfold updAssoc
      rw [if_neg hk, updAssoc_of_absent h]
      simp

theorem mem_updAssoc {α β : Type} [DecidableEq α] :
    ∀ {l : List (α × β)} {k : α} {v : β} {kv : α × β},
      kv ∈ updAssoc l k v → kv ∈ l ∨ kv = (k, v)
  | [], k, v, kv => by
    unfold updAssoc
    intro h
    simp at h
    exact Or.inr h
  | (k₁, v₁) :: rest, k, v, kv => by
    unfold updAssoc
    by_cases hk : k₁ = k
    · rw [if_pos hk]
      intro h
      rcases List.mem_cons.mp h with h | h
      · exact Or.inr h
      · exact Or.inl (List.mem_cons_of_mem _ h)
    · rw [if_neg hk]
      intro h
      rcases List.mem_cons.mp h with h | h
      · exact Or.inl (by rw [h]; exact List.mem_cons_self _ _)
      · rcases mem_updAssoc h with h | h
        · exact Or.inl (List.mem_cons_of_mem _ h)
        · exact Or.inr h

theorem find?_append_of_none {α : Type} {p : α → Bool} :
    ∀ {l : List α} (m : List α), l.find? p = none →
      (l ++ m).find? p = m.find? p
  | [], m, _ => rfl
  | a :: rest, m, h => by
    by_cases ha : p a
    · rw [List.find?_cons_of_pos _ ha] at h
      exact absurd h (by simp)
    · rw [List.find?_cons_of_neg _ ha] at h
      simp only [List.cons_append]
      rw [List.find?_cons_of_neg _ ha]
      exact find?_append_of_none m h

/-- C2 counterexample: the round-trip claim fails as stated.  Starting from a
service with no prices, storing a price under `Weight(Decimal("3.0"))` (key
`"3.0"`, modelled `⟨30, 1⟩`) and then calling `set_price` with `Weight(3)`
(key `"3"`, modelled `⟨3, 0⟩`) and price `1` leaves both keys in zone 5;
`get_price` with the numerically equal `Weight(Decimal("3.0"))` then hits the
exact key `"3.0"` first and returns the stale price `2`, not the price just
set. -/
theorem claim_c2_counterexample :
    ShippingServiceM.set_price ⟨str "X", [], []⟩ ⟨5⟩ ⟨⟨30, 1⟩⟩ ⟨2, 0⟩ =
      .ok ⟨str "X", [], [(5, [(⟨30, 1⟩, ⟨2, 0⟩)])]⟩ ∧
    ShippingServiceM.set_price ⟨str "X", [], [(5, [(⟨30, 1⟩, ⟨2, 0⟩)])]⟩
        ⟨5⟩ ⟨⟨3, 0⟩⟩ ⟨1, 0⟩ =
      .ok ⟨str "X", [], [(5, [(⟨30, 1⟩, ⟨2, 0⟩), (⟨3, 0⟩, ⟨1, 0⟩)])]⟩ ∧
    Dec.eqVal ⟨30, 1⟩ ⟨3, 0⟩ = true ∧
    (0 : Int) ≤ (1 : Int) ∧
    ShippingServiceM.get_price
        ⟨str "X", [], [(5, [(⟨30, 1⟩, ⟨2, 0⟩), (⟨3, 0⟩, ⟨1, 0⟩)])]⟩
        ⟨5⟩ ⟨⟨30, 1⟩⟩ = .ok ⟨2, 0⟩ ∧
    (⟨2, 0⟩ : Dec) ≠ ⟨1, 0⟩ := by
  refine ⟨rfl, rfl, by decide, by decide, rfl, by decide⟩

/-- C2 (amended): after `set_price(z, w, p)` with `p ≥ 0`, `get_price(z, w')`
returns exactly `p` for every weight `w'` numerically equal to `w`, provided
zone `z`'s table held no key numerically equal to `w` before the call (in
particular for a freshly created service). -/
theorem claim_c2_amended (s : ShippingServiceM) (z : ZoneV) (w w' : WeightV)
    (p : Dec) (hp : 0 ≤ p.mant)
    (hfresh : ∀ zl, lookupAssoc s.price_table z.value = some zl →
      ∀ kv ∈ zl, kv.1.eqVal w.dec = false)
    (hw : w'.dec.eqVal w.dec = true) :
    ∃ s', s.set_price z w p = .ok s' ∧ s'.get_price z w' = .ok p := by
  have hnotneg : ¬ p.mant < 0 := not_lt.mpr hp
  unfold ShippingServiceM.set_price
  rw [if_neg hnotneg]
  cases hz : lookupAssoc s.price_table z.value with
  | none =>
    refine ⟨_, rfl, ?_⟩
    unfold ShippingServiceM.get_price
    have hsymm : Dec.eqVal w.dec w'.dec = true := Dec.eqVal_symm hw
    simp only [lookupAssoc_append_left_none _ hz, lookupAssoc_cons_self]
    by_cases hwd : w.dec = w'.dec
    · simp [lookupAssoc, hwd]
    · simp [lookupAssoc, hwd, List.find?, hsymm]
  | some zl =>
    have hfreshz := hfresh zl hz
    have hzl_w : lookupAssoc zl w.dec = none := by
      rw [lookupAssoc_none_iff]
      intro kv hkv hk
      have := hfreshz kv hkv
      rw [hk] at this
      rw [Dec.eqVal_refl] at this
      exact absurd this (by simp)
    have hzl_w' : lookupAssoc zl w'.dec = none := by
      rw [lookupAssoc_none_iff]
      intro kv hkv hk
      have := hfreshz kv hkv
      rw [hk] at this
      rw [hw] at this
      exact absurd this (by simp)
    refine ⟨_, rfl, ?_⟩
    unfold ShippingServiceM.get_price
    have hsymm : Dec.eqVal w.dec w'.dec = true := Dec.eqVal_symm hw
    have hfz : zl.find? (fun kv => kv.1.eqVal w'.dec) = none := by
      rw [List.find?_eq_none]
      intro kv hkv hke
      have h1 : kv.1.eqVal w.dec = true := Dec.eqVal_trans hke hw
      have h2 := hfreshz kv hkv
      rw [h1] at h2
      exact absurd h2 (by simp)
    simp only [lookupAssoc_updAssoc_self, updAssoc_of_absent hzl_w,
      lookupAssoc_append_left_none _ hzl_w']
    by_cases hwd : w.dec = w'.dec
    · simp [lookupAssoc, hwd]
    · simp [lookupAssoc, hwd, find?_append_of_none _ hfz, List.find?, hsymm]

/-- C2 amended-claim witness at concrete inputs: a fresh service, price set
with key `"3"` and fetched with the numerically equal key `"3.0"`. -/
theorem claim_c2_amended_witness :
    ∃ s', ShippingServiceM.set_price ⟨str "X", [], []⟩ ⟨5⟩ ⟨⟨3, 0⟩⟩ ⟨295, 1⟩ =
        .ok s' ∧ s'.get_price ⟨5⟩ ⟨⟨30, 1⟩⟩ = .ok ⟨295, 1⟩ :=
  claim_c2_amended ⟨str "X", [], []⟩ ⟨5⟩ ⟨⟨3, 0⟩⟩ ⟨⟨30, 1⟩⟩ ⟨295, 1⟩ (by decide)
    (fun zl h => by simp [lookupAssoc] at h) (by decide)

/-- C10: `set_price` with a negative price fails with the `ValueError` and
leaves the aggregate (hence its `price_table`) completely unchanged — the
raise precedes every table operation; with a non-negative price the call
succeeds. -/
theorem claim_c10_set_price (s : ShippingServiceM) (z : ZoneV) (w : WeightV)
    (p : Dec) :
    (p.mant < 0 →
      s.set_price z w p = .error (.negativePrice p) ∧
      s.set_price_post z w p = s) ∧
    (0 ≤ p.mant → ∃ s', s.set_price z w p = .ok s') := by
  constructor
  · intro h
    have he : s.set_price z w p = .error (.negativePrice p) := by
      unfold ShippingServiceM.set_price
      rw [if_pos h]
    refine ⟨he, ?_⟩
    unfold ShippingServiceM.set_price_post
    rw [he]
  · intro h
    unfold ShippingServiceM.set_price
    rw [if_neg (not_lt.mpr h)]
    exact ⟨_, rfl⟩

/-- C10 witness at concrete inputs: price `-1` is rejected with the table
untouched, price `1` is accepted. -/
theorem claim_c10_set_price_witness :
    (ShippingServiceM.set_price ⟨str "X", [], []⟩ ⟨3⟩ ⟨⟨2, 0⟩⟩ ⟨-1, 0⟩ =
        .error (.negativePrice ⟨-1, 0⟩) ∧
      ShippingServiceM.set_price_post ⟨str "X", [], []⟩ ⟨3⟩ ⟨⟨2, 0⟩⟩ ⟨-1, 0⟩ =
        ⟨str "X", [], []⟩) ∧
    (∃ s', ShippingServiceM.set_price ⟨str "X", [], []⟩ ⟨3⟩ ⟨⟨2, 0⟩⟩ ⟨1, 0⟩ =
        .ok s') :=
  ⟨(claim_c10_set_price ⟨str "X", [], []⟩ ⟨3⟩ ⟨⟨2, 0⟩⟩ ⟨-1, 0⟩).1 (by decide),
    (claim_c10_set_price ⟨str "X", [], []⟩ ⟨3⟩ ⟨⟨2, 0⟩⟩ ⟨1, 0⟩).2 (by decide)⟩

/-! Character-class lemmas for the case-insensitive regex matching. -/

theorem asciiLower_toNat (c : Char) :
    (asciiLower c).toNat =
      if 65 ≤ c.toNat ∧ c.toNat ≤ 90 then c.toNat + 32 else c.toNat := by
  unfold asciiLower
  by_cases h : 65 ≤ c.toNat ∧ c.toNat ≤ 90
  · rw [if_pos (by simp [h.1, h.2]), if_pos h]
    obtain ⟨h1, h2⟩ := h
    interval_cases hn : c.toNat <;> decide
  · rw [if_neg (by simpa using fun h1 h2 => h ⟨h1, h2⟩), if_neg h]

theorem isDigitC_eq_decide (c : Char) :
    isDigitC c = decide (48 ≤ c.toNat ∧ c.toNat ≤ 57) := by
  rw [isDigitC, Bool.decide_and]

theorem isSpaceC_eq_decide (c : Char) :
    isSpaceC c = decide (c.toNat = 32 ∨ c.toNat = 9 ∨ c.toNat = 10 ∨
      c.toNat = 13 ∨ c.toNat = 11 ∨ c.toNat = 12) := by
  simp only [isSpaceC, Bool.decide_or, Bool.or_assoc]

theorem isDigitC_asciiLower (c : Char) :
    isDigitC (asciiLower c) = isDigitC c := by
  rw [isDigitC_eq_decide, isDigitC_eq_decide, decide_eq_decide, asciiLower_toNat]
  split <;> omega

theorem isSpaceC_asciiLower (c : Char) :
    isSpaceC (asciiLower c) = isSpaceC c := by
  rw [isSpaceC_eq_decide, isSpaceC_eq_decide, decide_eq_decide, asciiLower_toNat]
  split <;> omega

theorem map_asciiLower_digits {ds : Str} (hd : ∀ c ∈ ds, isDigitC c = true) :
    ds.map asciiLower = ds :=
  map_eq_self_of_fix (fun c hc => asciiLower_of_isDigitC (hd c hc))

theorem mem_pyStrip {c : Char} {l : Str} (h : c ∈ pyStrip l) : c ∈ l := by
  unfold pyStrip at h
  rw [List.mem_reverse] at h
  have h1 := (List.dropWhile_sublist isSpaceC).subset h
  rw [List.mem_reverse] at h1
  exact (List.dropWhile_sublist isSpaceC).subset h1

/-! Lemmas about the three zone patterns. -/

theorem zonePat1_none {l : Str} (h : ∀ c ∈ l, isDigitC c = false) :
    zonePat1 l = none := by
  cases l with
  | nil => rfl
  | cons c rest =>
    unfold zonePat1
    cases rest with
    | nil => simp
    | cons d t =>
      have hd := h d (by simp)
      simp [hd]

theorem zonePat2_none {l : Str} (h : ∀ c ∈ l, isDigitC c = false) :
    zonePat2 l = none := by
  unfold zonePat2
  by_cases hp : (str "zone").isPrefixOf l = true
  · rw [if_pos hp]
    cases hd : (l.drop 4).dropWhile isSpaceC with
    | nil => simp [hd]
    | cons c t =>
      have hc : c ∈ l := by
        have h1 : c ∈ (l.drop 4).dropWhile isSpaceC := by
          rw [hd]
          simp
        have h2 := (List.dropWhile_sublist isSpaceC).subset h1
        exact List.drop_subset _ _ h2
      have := h c hc
      simp [hd, this]
  · rw [if_neg hp]

theorem zonePat3_none {l : Str} (h : ∀ c ∈ l, isDigitC c = false) :
    zonePat3 l = none := by
  cases l with
  | nil => rfl
  | cons c t =>
    have hc := h c (by simp)
    simp [zonePat3, hc]

theorem digits_not_space {ds : Str} (hd : ∀ c ∈ ds, isDigitC c = true) :
    ∀ c ∈ ds, isSpaceC c = false :=
  fun c hc => isSpaceC_eq_false_of_isDigitC (hd c hc)

theorem zone_parse_z_form {ds : Str} (hne : ds ≠ [])
    (hd : ∀ c ∈ ds, isDigitC c = true) :
    ZoneV.parse ('z' :: ds) = ZoneV.make (digitsToNat ds) := by
  have hmap := map_asciiLower_digits hd
  have hall : ds.all isDigitC = true := List.all_eq_true.mpr hd
  have hstrip : pyStrip ('z' :: ds) = 'z' :: ds :=
    pyStrip_of_no_space (by
      intro c hc
      rcases List.mem_cons.mp hc with rfl | hm
      · decide
      · exact isSpaceC_eq_false_of_isDigitC (hd c hm))
  simp only [ZoneV.parse, hstrip, List.isEmpty_cons, List.map_cons, hmap,
    show asciiLower 'z' = 'z' from by decide, if_false,
    zonePatternDigits, zonePat1, List.isEmpty_eq_false.mpr hne, hall]
  simp

theorem zone_parse_zcap_form {ds : Str} (hne : ds ≠ [])
    (hd : ∀ c ∈ ds, isDigitC c = true) :
    ZoneV.parse ('Z' :: ds) = ZoneV.make (digitsToNat ds) := by
  have hmap := map_asciiLower_digits hd
  have hall : ds.all isDigitC = true := List.all_eq_true.mpr hd
  have hstrip : pyStrip ('Z' :: ds) = 'Z' :: ds :=
    pyStrip_of_no_space (by
      intro c hc
      rcases List.mem_cons.mp hc with rfl | hm
      · decide
      · exact isSpaceC_eq_false_of_isDigitC (hd c hm))
  simp only [ZoneV.parse, hstrip, List.isEmpty_cons, List.map_cons, hmap,
    show asciiLower 'Z' = 'z' from by decide, if_false,
    zonePatternDigits, zonePat1, List.isEmpty_eq_false.mpr hne, hall]
  simp

theorem zone_parse_zoneword_form {ds : Str} (hne : ds ≠ [])
    (hd : ∀ c ∈ ds, isDigitC c = true) :
    ZoneV.parse (str "zone " ++ ds) = ZoneV.make (digitsToNat ds) := by
  obtain ⟨m, b, hds⟩ : ∃ m b, ds = m ++ [b] := by
    rcases List.eq_nil_or_concat ds with h | ⟨m, b, h⟩
    · exact absurd h hne
    · exact ⟨m, b, by rw [h, List.concat_eq_append]⟩
  have hb : isDigitC b = true := hd b (by rw [hds]; simp)
  have hall : ds.all isDigitC = true := List.all_eq_true.mpr hd
  have hstrip : pyStrip (str "zone " ++ ds) = str "zone " ++ ds := by
    rw [hds]
    rw [show str "zone " ++ (m ++ [b]) = 'z' :: (('o' :: 'n' :: 'e' :: ' ' :: m) ++ [b]) from rfl]
    exact pyStrip_cons_concat (by decide) (isSpaceC_eq_false_of_isDigitC hb)
  have hmap : (str "zone " ++ ds).map asciiLower = str "zone " ++ ds := by
    rw [List.map_append, map_asciiLower_digits hd,
      show (str "zone ").map asciiLower = str "zone " from by decide]
  have hne2 : (str "zone " ++ ds).isEmpty = false := by
    rw [show str "zone " ++ ds = 'z' :: (str "one " ++ ds) from rfl]
    simp
  have hp1 : zonePat1 (str "zone " ++ ds) = none := by
    have hallf : (str "one " ++ ds).all isDigitC = false := by
      rw [show str "one " ++ ds = 'o' :: (str "ne " ++ ds) from rfl]
      simp [show isDigitC 'o' = false from by decide]
    rw [show str "zone " ++ ds = 'z' :: (str "one " ++ ds) from rfl]
    simp [zonePat1, hallf]
  have hpre : (str "zone").isPrefixOf (str "zone " ++ ds) = true := by
    rw [List.isPrefixOf_iff_prefix]
    exact ⟨' ' :: ds, rfl⟩
  have hdw : (' ' :: ds).dropWhile isSpaceC = ds := by
    rw [List.dropWhile_cons_of_pos (by decide)]
    exact dropWhile_eq_self_of_all (digits_not_space hd)
  have hp2 : zonePat2 (str "zone " ++ ds) = some ds := by
    simp only [zonePat2, hpre, if_true,
      show (str "zone " ++ ds).drop 4 = ' ' :: ds from rfl, hdw]
    simp [List.isEmpty_eq_false.mpr hne, hall]
  simp only [ZoneV.parse, hstrip, hmap, hne2, zonePatternDigits, hp1, hp2]
  simp

theorem zone_parse_zonecap_form {ds : Str} (hne : ds ≠ [])
    (hd : ∀ c ∈ ds, isDigitC c = true) :
    ZoneV.parse (str "Zone " ++ ds) = ZoneV.make (digitsToNat ds) := by
  obtain ⟨m, b, hds⟩ : ∃ m b, ds = m ++ [b] := by
    rcases List.eq_nil_or_concat ds with h | ⟨m, b, h⟩
    · exact absurd h hne
    · exact ⟨m, b, by rw [h, List.concat_eq_append]⟩
  have hb : isDigitC b = true := hd b (by rw [hds]; simp)
  have hall : ds.all isDigitC = true := List.all_eq_true.mpr hd
  have hstrip : pyStrip (str "Zone " ++ ds) = str "Zone " ++ ds := by
    rw [hds]
    rw [show str "Zone " ++ (m ++ [b]) = 'Z' :: (('o' :: 'n' :: 'e' :: ' ' :: m) ++ [b]) from rfl]
    exact pyStrip_cons_concat (by decide) (isSpaceC_eq_false_of_isDigitC hb)
  have hmap : (str "Zone " ++ ds).map asciiLower = str "zone " ++ ds := by
    rw [List.map_append, map_asciiLower_digits hd,
      show (str "Zone ").map asciiLower = str "zone " from by decide]
  have hne2 : (str "Zone " ++ ds).isEmpty = false := by
    rw [show str "Zone " ++ ds = 'Z' :: (str "one " ++ ds) from rfl]
    simp
  have hp1 : zonePat1 (str "zone " ++ ds) = none := by
    have hallf : (str "one " ++ ds).all isDigitC = false := by
      rw [show str "one " ++ ds = 'o' :: (str "ne " ++ ds) from rfl]
      simp [show isDigitC 'o' = false from by decide]
    rw [show str "zone " ++ ds = 'z' :: (str "one " ++ ds) from rfl]
    simp [zonePat1, hallf]
  have hpre : (str "zone").isPrefixOf (str "zone " ++ ds) = true := by
    rw [List.isPrefixOf_iff_prefix]
    exact ⟨' ' :: ds, rfl⟩
  have hdw : (' ' :: ds).dropWhile isSpaceC = ds := by
    rw [List.dropWhile_cons_of_pos (by decide)]
    exact dropWhile_eq_self_of_all (digits_not_space hd)
  have hp2 : zonePat2 (str "zone " ++ ds) = some ds := by
    simp only [zonePat2, hpre, if_true,
      show (str "zone " ++ ds).drop 4 = ' ' :: ds from rfl, hdw]
    simp [List.isEmpty_eq_false.mpr hne, hall]
  simp only [ZoneV.parse, hstrip, hmap, hne2, zonePatternDigits, hp1, hp2]
  simp

theorem zone_parse_bare_form {ds : Str} (hne : ds ≠ [])
    (hd : ∀ c ∈ ds, isDigitC c = true) :
    ZoneV.parse ds = ZoneV.make (digitsToNat ds) := by
  cases ds with
  | nil => exact absurd rfl hne
  | cons c t =>
    have hc : isDigitC c = true := hd c (by simp)
    have hall : (c :: t).all isDigitC = true := List.all_eq_true.mpr hd
    have hstrip : pyStrip (c :: t) = c :: t :=
      pyStrip_of_no_space (digits_not_space hd)
    have hmap := map_asciiLower_digits hd
    have hcz : (c == 'z') = false := by
      rw [beq_eq_false_iff_ne]
      intro h
      rw [h] at hc
      exact absurd hc (by decide)
    have hp1 : zonePat1 (c :: t) = none := by
      simp [zonePat1, hcz]
    have hpre : (str "zone").isPrefixOf (c :: t) = false := by
      cases hb : (str "zone").isPrefixOf (c :: t)
      · rfl
      · rw [List.isPrefixOf_iff_prefix] at hb
        obtain ⟨u, hu⟩ := hb
        rw [show str "zone" ++ u = 'z' :: (str "one" ++ u) from rfl] at hu
        have : c = 'z' := (List.cons.injEq _ _ _ _ ▸ hu).1.symm
        rw [this] at hc
        exact absurd hc (by decide)
    have hp2 : zonePat2 (c :: t) = none := by
      simp [zonePat2, hpre]
    have hp3 : zonePat3 (c :: t) = some (c :: t) := by
      simp [zonePat3, hall]
    simp only [ZoneV.parse, hstrip, hmap, List.isEmpty_cons,
      zonePatternDigits, hp1, hp2, hp3]
    simp

theorem zone_parse_nondigit {s : Str} (h : ∀ c ∈ s, isDigitC c = false) :
    ∃ e, ZoneV.parse s = .error e := by
  by_cases hcl : (pyStrip s).isEmpty = true
  · exact ⟨.emptyInput, by simp [ZoneV.parse, hcl]⟩
  · have hL : ∀ c ∈ (pyStrip s).map asciiLower, isDigitC c = false := by
      intro c hc
      obtain ⟨d, hd, rfl⟩ := List.mem_map.mp hc
      rw [isDigitC_asciiLower]
      exact h d (mem_pyStrip hd)
    refine ⟨.badFormat, ?_⟩
    simp only [ZoneV.parse, hcl, if_false, zonePatternDigits,
      zonePat1_none hL, zonePat2_none hL, zonePat3_none hL]
    simp

/-- C4: for digit strings denoting a zone in `[1, 8]`, `Zone.parse` accepts
all five input formats and returns that zone; for digit strings denoting an
integer outside `[1, 8]` every format fails with the range error; and every
input containing no digit at all fails with `InvalidZone`. -/
theorem claim_c4_zone_parse :
    (∀ ds : Str, ds ≠ [] → (∀ c ∈ ds, isDigitC c = true) →
      ((1 ≤ digitsToNat ds ∧ digitsToNat ds ≤ 8 →
        ZoneV.parse ('z' :: ds) = .ok ⟨digitsToNat ds⟩ ∧
        ZoneV.parse ('Z' :: ds) = .ok ⟨digitsToNat ds⟩ ∧
        ZoneV.parse (str "zone " ++ ds) = .ok ⟨digitsToNat ds⟩ ∧
        ZoneV.parse (str "Zone " ++ ds) = .ok ⟨digitsToNat ds⟩ ∧
        ZoneV.parse ds = .ok ⟨digitsToNat ds⟩) ∧
       (¬(1 ≤ digitsToNat ds ∧ digitsToNat ds ≤ 8) →
        ZoneV.parse ('z' :: ds) = .error (.notInRange (digitsToNat ds)) ∧
        ZoneV.parse ('Z' :: ds) = .error (.notInRange (digitsToNat ds)) ∧
        ZoneV.parse (str "zone " ++ ds) = .error (.notInRange (digitsToNat ds)) ∧
        ZoneV.parse (str "Zone " ++ ds) = .error (.notInRange (digitsToNat ds)) ∧
        ZoneV.parse ds = .error (.notInRange (digitsToNat ds))))) ∧
    (∀ s : Str, (∀ c ∈ s, isDigitC c = false) → ∃ e, ZoneV.parse s = .error e) := by
  constructor
  · intro ds hne hd
    constructor
    · intro hr
      have hmk : ZoneV.make (digitsToNat ds) = .ok ⟨digitsToNat ds⟩ := by
        simp [ZoneV.make, hr]
      exact ⟨zone_parse_z_form hne hd ▸ hmk, zone_parse_zcap_form hne hd ▸ hmk,
        zone_parse_zoneword_form hne hd ▸ hmk,
        zone_parse_zonecap_form hne hd ▸ hmk, zone_parse_bare_form hne hd ▸ hmk⟩
    · intro hr
      have hmk : ZoneV.make (digitsToNat ds) = .error (.notInRange (digitsToNat ds)) := by
        simp [ZoneV.make, hr]
      exact ⟨zone_parse_z_form hne hd ▸ hmk, zone_parse_zcap_form hne hd ▸ hmk,
        zone_parse_zoneword_form hne hd ▸ hmk,
        zone_parse_zonecap_form hne hd ▸ hmk, zone_parse_bare_form hne hd ▸ hmk⟩
  · exact fun s h => zone_parse_nondigit h

/-- C4 witness: the theorem applied at `z5` (accepted), `z9` (range error),
and the digit-free string `"hello"` (format error). -/
theorem claim_c4_zone_parse_witness :
    ZoneV.parse ('z' :: ['5']) = .ok ⟨digitsToNat ['5']⟩ ∧
    ZoneV.parse ('z' :: ['9']) = .error (.notInRange (digitsToNat ['9'])) ∧
    (∃ e, ZoneV.parse (str "hello") = .error e) :=
  ⟨((claim_c4_zone_parse.1 ['5'] (by decide) (by decide)).1 (by decide)).1,
   ((claim_c4_zone_parse.1 ['9'] (by decide) (by decide)).2 (by decide)).1,
   claim_c4_zone_parse.2 (str "hello") (by decide)⟩

theorem pyStrip_eq_self_hl {l : Str}
    (hh : ∀ c, l.head? = some c → isSpaceC c = false)
    (hl : ∀ c, l.getLast? = some c → isSpaceC c = false) : pyStrip l = l := by
  apply pyStrip_eq_self
  · cases hc : l with
    | nil => rfl
    | cons a t =>
      have := hh a (by rw [hc]; rfl)
      exact List.dropWhile_cons_of_neg (by simp [this])
  · cases hr : l.reverse with
    | nil => rfl
    | cons a t =>
      have hga : l.getLast? = some a := by
        rw [← List.head?_reverse, hr, List.head?_cons]
      have := hl a hga
      exact List.dropWhile_cons_of_neg (by simp [this])

theorem getLast?_mem_str {l : Str} {a : Char} (h : l.getLast? = some a) : a ∈ l := by
  cases hr : l.reverse with
  | nil =>
    have hnil : l = [] := by
      rw [← List.reverse_reverse l, hr]
      rfl
    rw [hnil] at h
    simp at h
  | cons b t =>
    have hb : l.getLast? = some b := by
      rw [← List.head?_reverse, hr, List.head?_cons]
    rw [h] at hb
    have hab : a = b := by simpa using hb
    have hbm : b ∈ l.reverse := by
      rw [hr]
      simp
    rw [List.mem_reverse] at hbm
    rw [hab]
    exact hbm

theorem parseDec_eq (l : Str) : parseDec l =
    (match l.drop (l.takeWhile isDigitC).length with
     | [] => if (l.takeWhile isDigitC).isEmpty then none
             else some ⟨(digitsToNat (l.takeWhile isDigitC) : Int), 0⟩
     | c :: fp =>
       if c == '.' && fp.all isDigitC &&
          !((l.takeWhile isDigitC).isEmpty && fp.isEmpty) then
         some ⟨(digitsToNat (l.takeWhile isDigitC ++ fp) : Int), fp.length⟩
       else none) := rfl

theorem parseDec_int {ip : Str} (hip : ip ≠ [])
    (hdip : ∀ c ∈ ip, isDigitC c = true) :
    parseDec ip = some ⟨(digitsToNat ip : Int), 0⟩ := by
  have htw : ip.takeWhile isDigitC = ip := List.takeWhile_eq_self_iff.mpr hdip
  rw [parseDec_eq, htw, List.drop_length]
  simp [List.isEmpty_eq_false.mpr hip]

theorem parseDec_frac {ip fp : Str} (hip : ip ≠ []) (hfp : fp ≠ [])
    (hdip : ∀ c ∈ ip, isDigitC c = true) (hdfp : ∀ c ∈ fp, isDigitC c = true) :
    parseDec (ip ++ '.' :: fp) =
      some ⟨(digitsToNat (ip ++ fp) : Int), fp.length⟩ := by
  have htw : ip.takeWhile isDigitC = ip := List.takeWhile_eq_self_iff.mpr hdip
  have h1 : (ip ++ '.' :: fp).takeWhile isDigitC = ip := by
    rw [List.takeWhile_append, if_pos (by rw [htw]),
      List.takeWhile_cons_of_neg (by decide)]
    simp
  have h2 : (ip ++ '.' :: fp).drop ip.length = '.' :: fp := List.drop_left ip _
  rw [parseDec_eq, h1, h2]
  simp [List.all_eq_true.mpr hdfp, List.isEmpty_eq_false.mpr hip,
    List.isEmpty_eq_false.mpr hfp]

theorem weight_parse_general {numText u : Str} {d : Dec}
    (hntne : numText ≠ [])
    (hnum_all : ∀ c ∈ numText, isDigitOrDot c = true)
    (hnum_last : ∀ c, numText.getLast? = some c → isDigitC c = true)
    (hparse : parseDec numText = some d)
    (hsfx_map : u.map asciiLower = u)
    (hsfx_nostart : ∀ c, u.head? = some c → isDigitOrDot c = false)
    (hsfx_last : ∀ c, u.getLast? = some c → isSpaceC c = false)
    (hunit : (u.dropWhile isSpaceC == ([] : Str) ||
              u.dropWhile isSpaceC == str "lb" ||
              u.dropWhile isSpaceC == str "lbs" ||
              u.dropWhile isSpaceC == str "pound" ||
              u.dropWhile isSpaceC == str "pounds") = true) :
    WeightV.parse (numText ++ u) = WeightV.make d := by
  have hstrip : pyStrip (numText ++ u) = numText ++ u := by
    apply pyStrip_eq_self_hl
    · intro c hc
      rw [List.head?_append_of_ne_nil _ hntne] at hc
      have hcm : c ∈ numText := by
        cases hx : numText with
        | nil => exact absurd hx hntne
        | cons a t =>
          rw [hx, List.head?_cons, Option.some_inj] at hc
          rw [← hc]
          simp
      have h3 := hnum_all c hcm
      simp only [isDigitOrDot, Bool.or_eq_true] at h3
      rcases h3 with h | h
      · exact isSpaceC_eq_false_of_isDigitC h
      · rw [show c = '.' from by simpa using h]
        decide
    · intro c hc
      rw [List.getLast?_append] at hc
      cases hs : u.getLast? with
      | some e =>
        rw [hs] at hc
        have hec : e = c := by simpa using hc
        rw [← hec]
        exact hsfx_last e hs
      | none =>
        rw [hs, Option.none_or] at hc
        exact isSpaceC_eq_false_of_isDigitC (hnum_last c hc)
  have hmap : (numText ++ u).map asciiLower = numText ++ u := by
    rw [List.map_append, hsfx_map, map_eq_self_of_fix]
    intro c hc
    have h3 := hnum_all c hc
    simp only [isDigitOrDot, Bool.or_eq_true] at h3
    rcases h3 with h | h
    · exact asciiLower_of_isDigitC h
    · rw [show c = '.' from by simpa using h]
      decide
  have hnum : (numText ++ u).takeWhile isDigitOrDot = numText := by
    rw [List.takeWhile_append,
      if_pos (by rw [List.takeWhile_eq_self_iff.mpr hnum_all])]
    cases hx : u with
    | nil => simp
    | cons a t =>
      rw [List.takeWhile_cons_of_neg]
      · simp
      · have := hsfx_nostart a (by rw [hx]; rfl)
        simp [this]
  have hdrop : (numText ++ u).drop numText.length = u := List.drop_left _ _
  have hWne : (numText ++ u).isEmpty = false := by
    rw [List.isEmpty_eq_false]
    intro h0
    exact hntne (List.append_eq_nil.mp h0).1
  simp only [WeightV.parse, hstrip, hWne, hmap, hnum, hdrop,
    List.isEmpty_eq_false.mpr hntne, hunit, Bool.not_true,
    Bool.false_eq_true, if_false, hparse]

theorem weightV_make_pos {n e : Nat} (h : 0 < n) :
    WeightV.make ⟨(n : Int), e⟩ = .ok ⟨⟨(n : Int), e⟩⟩ := by
  unfold WeightV.make
  rw [if_neg]
  simp only [not_le]
  exact_mod_cast h

theorem weightV_make_nonpos {d : Dec} (h : d.mant ≤ 0) :
    WeightV.make d = .error .notPositive := by
  unfold WeightV.make
  rw [if_pos h]

theorem pyStrip_cons_ne_space {c : Char} {t : Str} (hc : isSpaceC c = false) :
    ∃ u, pyStrip (c :: t) = c :: u := by
  unfold pyStrip
  rw [List.dropWhile_cons_of_neg (by simp [hc])]
  have hXne : (c :: t).reverse.dropWhile isSpaceC ≠ [] := by
    intro h0
    rw [List.dropWhile_eq_nil_iff] at h0
    have := h0 c (by simp)
    rw [hc] at this
    exact absurd this (by simp)
  obtain ⟨u, hu⟩ := List.dropWhile_suffix (l := (c :: t).reverse) isSpaceC
  have happ : ((c :: t).reverse.dropWhile isSpaceC).reverse ++ u.reverse = c :: t := by
    rw [← List.reverse_append, hu, List.reverse_reverse]
  cases hXr : ((c :: t).reverse.dropWhile isSpaceC).reverse with
  | nil =>
    exfalso
    apply hXne
    rw [← List.reverse_reverse ((c :: t).reverse.dropWhile isSpaceC), hXr]
    rfl
  | cons b v =>
    refine ⟨v, ?_⟩
    rw [hXr] at happ
    simp only [List.cons_append] at happ
    have hb : b = c := (List.cons.injEq _ _ _ _ ▸ happ).1
    rw [hb]

theorem weight_parse_minus {t : Str} : ∃ e, WeightV.parse ('-' :: t) = .error e := by
  obtain ⟨u, hu⟩ := pyStrip_cons_ne_space (c := '-') (t := t) (by decide)
  refine ⟨.badFormat, ?_⟩
  have hnum : (('-' :: u).map asciiLower).takeWhile isDigitOrDot = [] := by
    rw [List.map_cons, show asciiLower '-' = '-' from by decide,
      List.takeWhile_cons_of_neg (by decide)]
  simp only [WeightV.parse, hu, List.isEmpty_cons, Bool.false_eq_true,
    if_false, hnum]
  simp

theorem sfx_side {u : Str} {a b : Char} (hh : u.head? = some a)
    (ha : isDigitOrDot a = false) (hg : u.getLast? = some b)
    (hb : isSpaceC b = false) :
    (∀ c, u.head? = some c → isDigitOrDot c = false) ∧
    (∀ c, u.getLast? = some c → isSpaceC c = false) := by
  constructor
  · intro c hc
    rw [hh] at hc
    rwa [← (by simpa using hc : a = c)]
  · intro c hc
    rw [hg] at hc
    rwa [← (by simpa using hc : b = c)]

theorem weight_parse_int_forms {ip : Str} (hip : ip ≠ [])
    (hdip : ∀ c ∈ ip, isDigitC c = true) :
    WeightV.parse (ip ++ str " lb") = WeightV.make ⟨(digitsToNat ip : Int), 0⟩ ∧
    WeightV.parse (ip ++ str "lb") = WeightV.make ⟨(digitsToNat ip : Int), 0⟩ ∧
    WeightV.parse (ip ++ str " lbs") = WeightV.make ⟨(digitsToNat ip : Int), 0⟩ ∧
    WeightV.parse ip = WeightV.make ⟨(digitsToNat ip : Int), 0⟩ := by
  have hall : ∀ c ∈ ip, isDigitOrDot c = true := by
    intro c hc
    simp [isDigitOrDot, hdip c hc]
  have hlast : ∀ c, ip.getLast? = some c → isDigitC c = true :=
    fun c hc => hdip c (getLast?_mem_str hc)
  have hparse := parseDec_int hip hdip
  obtain ⟨hn1, hl1⟩ := sfx_side (u := str " lb") (a := ' ') (b := 'b')
    (by decide) (by decide) (by decide) (by decide)
  obtain ⟨hn2, hl2⟩ := sfx_side (u := str "lb") (a := 'l') (b := 'b')
    (by decide) (by decide) (by decide) (by decide)
  obtain ⟨hn3, hl3⟩ := sfx_side (u := str " lbs") (a := ' ') (b := 's')
    (by decide) (by decide) (by decide) (by decide)
  refine ⟨weight_parse_general hip hall hlast hparse (by decide) hn1 hl1 (by decide),
    weight_parse_general hip hall hlast hparse (by decide) hn2 hl2 (by decide),
    weight_parse_general hip hall hlast hparse (by decide) hn3 hl3 (by decide), ?_⟩
  have h4 := weight_parse_general (u := []) hip hall hlast hparse (by decide)
    (by intro c hc; simp at hc) (by intro c hc; simp at hc) (by decide)
  rwa [List.append_nil] at h4

theorem weight_parse_frac_forms {ip fp : Str} (hip : ip ≠ []) (hfp : fp ≠ [])
    (hdip : ∀ c ∈ ip, isDigitC c = true) (hdfp : ∀ c ∈ fp, isDigitC c = true) :
    WeightV.parse ((ip ++ '.' :: fp) ++ str " lb") =
      WeightV.make ⟨(digitsToNat (ip ++ fp) : Int), fp.length⟩ ∧
    WeightV.parse ((ip ++ '.' :: fp) ++ str "lb") =
      WeightV.make ⟨(digitsToNat (ip ++ fp) : Int), fp.length⟩ ∧
    WeightV.parse ((ip ++ '.' :: fp) ++ str " lbs") =
      WeightV.make ⟨(digitsToNat (ip ++ fp) : Int), fp.length⟩ ∧
    WeightV.parse (ip ++ '.' :: fp) =
      WeightV.make ⟨(digitsToNat (ip ++ fp) : Int), fp.length⟩ := by
  have hntne : ip ++ '.' :: fp ≠ [] := by simp
  have hall : ∀ c ∈ ip ++ '.' :: fp, isDigitOrDot c = true := by
    intro c hc
    rcases List.mem_append.mp hc with h | h
    · simp [isDigitOrDot, hdip c h]
    · rcases List.mem_cons.mp h with rfl | h
      · decide
      · simp [isDigitOrDot, hdfp c h]
  have hlast : ∀ c, (ip ++ '.' :: fp).getLast? = some c → isDigitC c = true := by
    intro c hc
    rw [List.getLast?_append_of_ne_nil _ (by simp),
      show ('.' :: fp) = ['.'] ++ fp from rfl,
      List.getLast?_append_of_ne_nil _ hfp] at hc
    exact hdfp c (getLast?_mem_str hc)
  have hparse := parseDec_frac hip hfp hdip hdfp
  obtain ⟨hn1, hl1⟩ := sfx_side (u := str " lb") (a := ' ') (b := 'b')
    (by decide) (by decide) (by decide) (by decide)
  obtain ⟨hn2, hl2⟩ := sfx_side (u := str "lb") (a := 'l') (b := 'b')
    (by decide) (by decide) (by decide) (by decide)
  obtain ⟨hn3, hl3⟩ := sfx_side (u := str " lbs") (a := ' ') (b := 's')
    (by decide) (by decide) (by decide) (by decide)
  refine ⟨weight_parse_general hntne hall hlast hparse (by decide) hn1 hl1 (by decide),
    weight_parse_general hntne hall hlast hparse (by decide) hn2 hl2 (by decide),
    weight_parse_general hntne hall hlast hparse (by decide) hn3 hl3 (by decide), ?_⟩
  have h4 := weight_parse_general (u := []) hntne hall hlast hparse (by decide)
    (by intro c hc; simp at hc) (by intro c hc; simp at hc) (by decide)
  rwa [List.append_nil] at h4

/-- C5: for positive decimals written as plain numerals (integer digit string
`ip`, or `ip.fp` with fractional digits `fp` — the string forms Python
`Decimal` prints for the weights this program handles), `Weight.parse`
accepts `"{w} lb"`, `"{w}lb"`, `"{w} lbs"` and bare `"{w}"`, returning
exactly `Weight(w)`; when the numeral denotes zero every form fails with
`InvalidWeight` (not positive), a leading minus sign fails with
`InvalidWeight` (format), and direct construction of any non-positive
decimal fails with `InvalidWeight`. -/
theorem claim_c5_weight_parse :
    (∀ ip : Str, ip ≠ [] → (∀ c ∈ ip, isDigitC c = true) →
      ((0 < digitsToNat ip →
        WeightV.parse (ip ++ str " lb") = .ok ⟨⟨(digitsToNat ip : Int), 0⟩⟩ ∧
        WeightV.parse (ip ++ str "lb") = .ok ⟨⟨(digitsToNat ip : Int), 0⟩⟩ ∧
        WeightV.parse (ip ++ str " lbs") = .ok ⟨⟨(digitsToNat ip : Int), 0⟩⟩ ∧
        WeightV.parse ip = .ok ⟨⟨(digitsToNat ip : Int), 0⟩⟩ ∧
        WeightV.make ⟨(digitsToNat ip : Int), 0⟩ =
          .ok ⟨⟨(digitsToNat ip : Int), 0⟩⟩) ∧
       (digitsToNat ip = 0 →
        WeightV.parse (ip ++ str " lb") = .error .notPositive ∧
        WeightV.parse (ip ++ str "lb") = .error .notPositive ∧
        WeightV.parse (ip ++ str " lbs") = .error .notPositive ∧
        WeightV.parse ip = .error .notPositive ∧
        WeightV.make ⟨(digitsToNat ip : Int), 0⟩ = .error .notPositive))) ∧
    (∀ ip fp : Str, ip ≠ [] → fp ≠ [] →
      (∀ c ∈ ip, isDigitC c = true) → (∀ c ∈ fp, isDigitC c = true) →
      ((0 < digitsToNat (ip ++ fp) →
        WeightV.parse ((ip ++ '.' :: fp) ++ str " lb") =
          .ok ⟨⟨(digitsToNat (ip ++ fp) : Int), fp.length⟩⟩ ∧
        WeightV.parse ((ip ++ '.' :: fp) ++ str "lb") =
          .ok ⟨⟨(digitsToNat (ip ++ fp) : Int), fp.length⟩⟩ ∧
        WeightV.parse ((ip ++ '.' :: fp) ++ str " lbs") =
          .ok ⟨⟨(digitsToNat (ip ++ fp) : Int), fp.length⟩⟩ ∧
        WeightV.parse (ip ++ '.' :: fp) =
          .ok ⟨⟨(digitsToNat (ip ++ fp) : Int), fp.length⟩⟩ ∧
        WeightV.make ⟨(digitsToNat (ip ++ fp) : Int), fp.length⟩ =
          .ok ⟨⟨(digitsToNat (ip ++ fp) : Int), fp.length⟩⟩) ∧
       (digitsToNat (ip ++ fp) = 0 →
        WeightV.parse ((ip ++ '.' :: fp) ++ str " lb") = .error .notPositive ∧
        WeightV.parse ((ip ++ '.' :: fp) ++ str "lb") = .error .notPositive ∧
        WeightV.parse ((ip ++ '.' :: fp) ++ str " lbs") = .error .notPositive ∧
        WeightV.parse (ip ++ '.' :: fp) = .error .notPositive ∧
        WeightV.make ⟨(digitsToNat (ip ++ fp) : Int), fp.length⟩ =
          .error .notPositive))) ∧
    (∀ t : Str, ∃ e, WeightV.parse ('-' :: t) = .error e) ∧
    (∀ d : Dec, d.mant ≤ 0 → WeightV.make d = .error .notPositive) := by
  refine ⟨?_, ?_, fun t => weight_parse_minus, fun d h => weightV_make_nonpos h⟩
  · intro ip hip hdip
    obtain ⟨h1, h2, h3, h4⟩ := weight_parse_int_forms hip hdip
    constructor
    · intro hpos
      have hmk := weightV_make_pos (e := 0) hpos
      exact ⟨h1.trans hmk, h2.trans hmk, h3.trans hmk, h4.trans hmk, hmk⟩
    · intro hz
      have hmk : WeightV.make ⟨(digitsToNat ip : Int), 0⟩ = .error .notPositive :=
        weightV_make_nonpos (by simp [hz])
      exact ⟨h1.trans hmk, h2.trans hmk, h3.trans hmk, h4.trans hmk, hmk⟩
  · intro ip fp hip hfp hdip hdfp
    obtain ⟨h1, h2, h3, h4⟩ := weight_parse_frac_forms hip hfp hdip hdfp
    constructor
    · intro hpos
      have hmk := weightV_make_pos (e := fp.length) hpos
      exact ⟨h1.trans hmk, h2.trans hmk, h3.trans hmk, h4.trans hmk, hmk⟩
    · intro hz
      have hmk : WeightV.make ⟨(digitsToNat (ip ++ fp) : Int), fp.length⟩ =
          .error .notPositive := weightV_make_nonpos (by simp [hz])
      exact ⟨h1.trans hmk, h2.trans hmk, h3.trans hmk, h4.trans hmk, hmk⟩

/-- C5 witness: the theorem applied at `"3.5 lb"` (accepted, value `3.5`),
at `"0"` (rejected, not positive), at `"-3"` (rejected, bad format), and at
direct construction of `-1`. -/
theorem claim_c5_weight_parse_witness :
    WeightV.parse ((['3'] ++ '.' :: ['5']) ++ str " lb") =
      .ok ⟨⟨(digitsToNat (['3'] ++ ['5']) : Int), (['5'] : Str).length⟩⟩ ∧
    WeightV.parse ['0'] = .error .notPositive ∧
    (∃ e, WeightV.parse ('-' :: ['3']) = .error e) ∧
    WeightV.make ⟨-1, 0⟩ = .error .notPositive :=
  ⟨(((claim_c5_weight_parse.2.1 ['3'] ['5'] (by decide) (by decide) (by decide)
      (by decide)).1 (by decide)).1),
   (((claim_c5_weight_parse.1 ['0'] (by decide) (by decide)).2 (by decide)).2.2.2.1),
   claim_c5_weight_parse.2.2.1 ['3'],
   claim_c5_weight_parse.2.2.2 ⟨-1, 0⟩ (by decide)⟩

/-- C7 counterexample: a comma query with exactly 3 parts whose second and
third parts are valid zone and weight text still fails when the first part
is empty, so the claim's success condition is incomplete. -/
theorem claim_c7_counterexample :
    ((splitComma (pyStrip (str ", z5, 3 lb"))).map pyStrip).length = 3 ∧
    ZoneV.parse (((splitComma (pyStrip (str ", z5, 3 lb"))).map pyStrip).getD 1 []) =
      .ok ⟨5⟩ ∧
    WeightV.parse (((splitComma (pyStrip (str ", z5, 3 lb"))).map pyStrip).getD 2 []) =
      .ok ⟨⟨3, 0⟩⟩ ∧
    QueryParser.parse (str ", z5, 3 lb") = .error .emptyService :=
  ⟨by decide, rfl, rfl, rfl⟩

/-- C7 (amended): on comma-containing queries the comma grammar fails for
any part count below 3 (in particular 2) or above 4 (in particular 5), and
succeeds for exactly 3 or 4 parts whose second and third parts are valid
zone and weight text — provided additionally that the first part is
non-empty after trimming. -/
theorem claim_c7_amended (query : Str)
    (hcomma : (pyStrip query).contains ',' = true) :
    (((splitComma (pyStrip query)).map pyStrip).length < 3 →
      QueryParser.parse query = .error .tooFewParts) ∧
    (((splitComma (pyStrip query)).map pyStrip).length > 4 →
      QueryParser.parse query = .error .tooManyParts) ∧
    (∀ z w, (((splitComma (pyStrip query)).map pyStrip).length = 3 ∨
             ((splitComma (pyStrip query)).map pyStrip).length = 4) →
      ((splitComma (pyStrip query)).map pyStrip).getD 0 [] ≠ [] →
      ZoneV.parse (((splitComma (pyStrip query)).map pyStrip).getD 1 []) = .ok z →
      WeightV.parse (((splitComma (pyStrip query)).map pyStrip).getD 2 []) = .ok w →
      ∃ pq, QueryParser.parse query = .ok pq ∧ pq.zone = z ∧ pq.weight = w) := by
  have hqne : pyStrip query ≠ [] := by
    intro h0
    rw [h0] at hcomma
    simp [List.contains] at hcomma
  have hparse : QueryParser.parse query =
      QueryParser.parse_comma_separated (pyStrip query) := by
    simp only [QueryParser.parse]
    rw [if_neg (by rw [List.isEmpty_eq_false.mpr hqne]; simp), if_pos hcomma]
  refine ⟨?_, ?_, ?_⟩
  · intro hlt
    rw [hparse]
    simp only [QueryParser.parse_comma_separated]
    rw [if_pos hlt]
  · intro hgt
    rw [hparse]
    simp only [QueryParser.parse_comma_separated]
    rw [if_neg (by omega), if_pos hgt]
  · intro z w hlen hsvc hz hw
    rw [hparse]
    have hst : pyStrip (((splitComma (pyStrip query)).map pyStrip).getD 0 []) =
        ((splitComma (pyStrip query)).map pyStrip).getD 0 [] := by
      have h0lt : 0 < ((splitComma (pyStrip query)).map pyStrip).length := by omega
      rw [List.getD_eq_getElem _ _ h0lt]
      have hm := List.getElem_mem h0lt
      obtain ⟨x, _, hxe⟩ := List.mem_map.mp hm
      rw [← hxe]
      exact pyStrip_idem x
    simp only [QueryParser.parse_comma_separated]
    rw [if_neg (by omega), if_neg (by omega),
      if_neg (by rw [List.isEmpty_eq_false.mpr hsvc]; simp), hz, hw]
    simp only [PriceQueryE.make, hst,
      List.isEmpty_eq_false.mpr hsvc, Bool.false_eq_true, if_false]
    exact ⟨_, rfl, rfl, rfl⟩

/-- C7 witness: the theorem applied at a 2-part query, a 5-part query, and a
valid 3-part query. -/
theorem claim_c7_amended_witness :
    QueryParser.parse (str "zone 5, 3lb") = .error .tooFewParts ∧
    QueryParser.parse (str "a, b, c, d, e") = .error .tooManyParts ∧
    (∃ pq, QueryParser.parse (str "Ground, z5, 3 lb") = .ok pq ∧
      pq.zone = ⟨5⟩ ∧ pq.weight = ⟨⟨3, 0⟩⟩) :=
  ⟨(claim_c7_amended (str "zone 5, 3lb") (by decide)).1 (by decide),
   (claim_c7_amended (str "a, b, c, d, e") (by decide)).2.1 (by decide),
   (claim_c7_amended (str "Ground, z5, 3 lb") (by decide)).2.2 ⟨5⟩ ⟨⟨3, 0⟩⟩
     (by decide) (by decide) rfl rfl⟩

/-- C8 counterexample: `"zone 99, 5lb"` does not fail at `Zone.parse` — the
comma grammar rejects it first for having only 2 parts, and the resulting
`InvalidQuery` does not carry an `InvalidZone`. -/
theorem claim_c8_counterexample :
    QueryParser.parse (str "zone 99, 5lb") = .error .tooFewParts ∧
    ¬ ∃ e, QueryParser.parse (str "zone 99, 5lb") = .error (.invalidZone e) := by
  have h : QueryParser.parse (str "zone 99, 5lb") = .error .tooFewParts := rfl
  refine ⟨h, ?_⟩
  rintro ⟨e, he⟩
  rw [h] at he
  simp at he

/-- C8 (amended): `"zone 99, 5lb"` fails during parsing with the
`InvalidQuery` part-count error (the comma split yields only 2 parts, so
`Zone.parse` is never invoked), and a search over this query performs no
service matching and no price lookup. -/
theorem claim_c8_amended :
    QueryParser.parse (str "zone 99, 5lb") = .error .tooFewParts ∧
    ((splitComma (pyStrip (str "zone 99, 5lb"))).map pyStrip).length = 2 ∧
    PriceSearchService.search [⟨str "S", [], []⟩] none
        ⟨str "zone 99, 5lb", false⟩ =
      ⟨SearchResponseE.error_response (.invalidQuery .tooFewParts), 0, 0⟩ :=
  ⟨rfl, by decide, rfl⟩

/-- C1 (code bug): parsing `"Express Saver Z8 1 lb"` does not yield service
type `"Express Saver"`.  `_find_zone_and_weight` searches for the weight in
the text after the zone match, so the returned weight span is relative to
that substring, but `_parse_space_separated` compares it against the
absolute zone start (`weight_match.start() < zone_match.start()`), takes the
wrong branch, and truncates the service type to `query[:1] = "E"` while
misfiling `"1 lb"` as packaging.  The embedding reproduces the computation
exactly. -/
theorem claim_c1_space_grammar_bug :
    QueryParser.parse (str "Express Saver Z8 1 lb") =
      .ok ⟨str "E", ⟨8⟩, ⟨⟨1, 0⟩⟩, some (str "1 lb")⟩ ∧
    str "E" ≠ str "Express Saver" :=
  ⟨rfl, by decide⟩

/-- C6 counterexample: with no services loaded, an unparseable query returns
the data-not-loaded failure, not the typed invalid-query failure, so the
claim fails for the empty-repository state it explicitly includes. -/
theorem claim_c6_counterexample :
    QueryParser.parse (str "hello") = .error .noZone ∧
    PriceSearchService.search [] none ⟨str "hello", true⟩ =
      ⟨SearchResponseE.error_response .dataNotLoaded, 0, 0⟩ ∧
    SearchResponseE.error_response ErrMsg.dataNotLoaded ≠
      SearchResponseE.error_response (.invalidQuery .noZone) :=
  ⟨rfl, rfl, by decide⟩

/-- C6 (amended): provided at least one service is loaded and the cache
check yields no hit (caching disabled, no cache, or no entry for the key),
a query that fails to parse makes `search` return the typed invalid-query
failure with no further work: the service matcher is never invoked and no
price lookup runs, regardless of the services' contents. -/
theorem claim_c6_amended (services : List ShippingServiceM)
    (cache : Option (Str → Option SearchResponseE)) (request : SearchRequest)
    (e : ParseErr) (hsvc : services.length ≠ 0)
    (hcache : (if request.use_cache then
        cache.bind (fun f => f (cacheKey request.query)) else none) = none)
    (hparse : QueryParser.parse request.query = .error e) :
    PriceSearchService.search services cache request =
      ⟨SearchResponseE.error_response (.invalidQuery e), 0, 0⟩ := by
  unfold PriceSearchService.search
  rw [if_neg hsvc, hcache, hparse]

/-- C6 witness: a one-service repository, no cache, and the unparseable
query `"hello"`. -/
theorem claim_c6_amended_witness :
    PriceSearchService.search [⟨str "S", [], []⟩] none ⟨str "hello", true⟩ =
      ⟨SearchResponseE.error_response (.invalidQuery .noZone), 0, 0⟩ :=
  claim_c6_amended [⟨str "S", [], []⟩] none ⟨str "hello", true⟩ .noZone
    (by decide) rfl rfl

theorem foldl_invariant {α β : Type} {P : α → Prop} {f : α → β → α} :
    ∀ {l : List β} {a : α}, P a → (∀ a₁ x, x ∈ l → P a₁ → P (f a₁ x)) →
      P (l.foldl f a)
  | [], a, ha, _ => ha
  | x :: t, a, ha, hf => by
    rw [List.foldl_cons]
    exact foldl_invariant (hf a x (by simp) ha)
      (fun a₁ y hy => hf a₁ y (by simp [hy]))

theorem foldl_fixed {α β : Type} {f : α → β → α} :
    ∀ {l : List β} {a : α}, (∀ x ∈ l, ∀ a₁, f a₁ x = a₁) → l.foldl f a = a
  | [], _, _ => rfl
  | x :: t, a, h => by
    rw [List.foldl_cons, h x (by simp)]
    exact foldl_fixed (fun y hy => h y (by simp [hy]))

theorem processRow_preserves {w : Option Str → List Str}
    {p : Option Str → Str → Option Dec} {s : List (Nat × Str)}
    (acc : List (Str × List Dec)) (row : List (Option Str))
    (hacc : ∀ kv ∈ acc, kv.2.length = s.length) :
    ∀ kv ∈ TableExtractor.processRow w p s acc row, kv.2.length = s.length := by
  unfold TableExtractor.processRow
  by_cases hwe : (TableExtractor.rowWeights w row).isEmpty = true
  · rw [if_pos hwe]
    exact hacc
  · rw [if_neg hwe]
    refine foldl_invariant
      (P := fun a : List (Str × List Dec) => ∀ kv ∈ a, kv.2.length = s.length)
      hacc ?_
    intro a₁ x _ ha₁ kv hkv
    by_cases hl : (TableExtractor.collectPrices p row s x).length = s.length
    · rw [if_pos hl] at hkv
      rcases mem_updAssoc hkv with h | h
      · exact ha₁ kv h
      · rw [h]
        exact hl
    · rw [if_neg hl] at hkv
      exact ha₁ kv hkv

/-- C3: in `extract_weight_prices` every stored price list has length equal
to the number of service columns, and a data row whose weight tokens each
yield parseable prices for only a strict subset of the service columns
leaves the accumulated map untouched — the row is dropped entirely, never
partially recorded.  The statement holds for every choice of the cell-level
weight and price extractors. -/
theorem claim_c3_extract_invariant
    (ew : Option Str → List Str) (ep : Option Str → Str → Option Dec)
    (table : List (List (Option Str))) (service_columns : List (Nat × Str))
    (skip : Nat) :
    (∀ kv ∈ TableExtractor.extract_weight_prices ew ep table service_columns skip,
      kv.2.length = service_columns.length) ∧
    (∀ (acc : List (Str × List Dec)) (row : List (Option Str)),
      (∀ w ∈ TableExtractor.rowWeights ew row,
        (TableExtractor.collectPrices ep row service_columns w).length <
          service_columns.length) →
      TableExtractor.processRow ew ep service_columns acc row = acc) := by
  constructor
  · intro kv hkv
    unfold TableExtractor.extract_weight_prices at hkv
    by_cases ht : table.length ≤ skip
    · rw [if_pos ht] at hkv
      simp at hkv
    · rw [if_neg ht] at hkv
      refine foldl_invariant
        (P := fun a : List (Str × List Dec) =>
          ∀ kv ∈ a, kv.2.length = service_columns.length)
        (by intro kv h0; simp at h0)
        (fun a₁ row _ ha₁ => processRow_preserves a₁ row ha₁) kv hkv
  · intro acc row hrow
    unfold TableExtractor.processRow
    by_cases hwe : (TableExtractor.rowWeights ew row).isEmpty = true
    · rw [if_pos hwe]
    · rw [if_neg hwe]
      apply foldl_fixed
      intro w hw a₁
      rw [if_neg (Nat.ne_of_lt (hrow w hw))]

/-- C3 witness: a concrete table with three service columns whose single
data row has prices in all columns (every stored list has length 3), and a
row with parseable prices for only 2 of the 3 columns that contributes no
entry. -/
theorem claim_c3_extract_invariant_witness :
    (∀ kv ∈ TableExtractor.extract_weight_prices ewOne epDigits
        [[some (str "h")], [some (str "h")],
         [some (str "1"), some (str "10"), some (str "20"), some (str "30")]]
        [(1, str "A"), (2, str "B"), (3, str "C")] 2,
      kv.2.length = ([(1, str "A"), (2, str "B"), (3, str "C")] : List (Nat × Str)).length) ∧
    TableExtractor.processRow ewOne epDigits
        [(1, str "A"), (2, str "B"), (3, str "C")] []
        [some (str "1"), some (str "10"), some (str "x")] = [] :=
  ⟨(claim_c3_extract_invariant ewOne epDigits
      [[some (str "h")], [some (str "h")],
       [some (str "1"), some (str "10"), some (str "20"), some (str "30")]]
      [(1, str "A"), (2, str "B"), (3, str "C")] 2).1,
   (claim_c3_extract_invariant ewOne epDigits
      [[some (str "h")], [some (str "h")],
       [some (str "1"), some (str "10"), some (str "20"), some (str "30")]]
      [(1, str "A"), (2, str "B"), (3, str "C")] 2).2 []
      [some (str "1"), some (str "10"), some (str "x")] (by decide)⟩

/-! Normalization lemmas for the service matcher. -/

theorem asciiLower_fix_of_not_upper {c : Char}
    (h : ¬(65 ≤ c.toNat ∧ c.toNat ≤ 90)) : asciiLower c = c := by
  unfold asciiLower
  rw [if_neg (by simpa using fun h1 h2 => h ⟨h1, h2⟩)]

theorem asciiLower_idem (c : Char) :
    asciiLower (asciiLower c) = asciiLower c := by
  apply asciiLower_fix_of_not_upper
  rw [asciiLower_toNat]
  split <;> omega

theorem collapseWs_mem : ∀ {l : Str} {c : Char},
    c ∈ collapseWs l → c ∈ l ∨ c = ' '
  | [], c => by simp [collapseWs]
  | [d], c => by
    by_cases h : isSpaceC d = true
    · simp only [collapseWs, h, if_true]
      intro hm
      exact Or.inr (List.mem_singleton.mp hm)
    · simp only [collapseWs, h, if_false]
      intro hm
      exact Or.inl (by simp [List.mem_singleton.mp hm])
  | a :: b :: rest, c => by
    show c ∈ collapseWs (a :: b :: rest) → _
    by_cases ha : isSpaceC a = true
    · by_cases hb : isSpaceC b = true
      · rw [show collapseWs (a :: b :: rest) = collapseWs (b :: rest) by
          simp [collapseWs, ha, hb]]
        intro h
        rcases collapseWs_mem h with h | h
        · exact Or.inl (by simp [List.mem_cons.mp h])
        · exact Or.inr h
      · rw [show collapseWs (a :: b :: rest) = ' ' :: collapseWs (b :: rest) by
          simp [collapseWs, ha, hb]]
        intro h
        rcases List.mem_cons.mp h with h | h
        · exact Or.inr h
        · rcases collapseWs_mem h with h | h
          · exact Or.inl (by simp [List.mem_cons.mp h])
          · exact Or.inr h
    · rw [show collapseWs (a :: b :: rest) = a :: collapseWs (b :: rest) by
        simp [collapseWs, ha]]
      intro h
      rcases List.mem_cons.mp h with h | h
      · exact Or.inl (by simp [h])
      · rcases collapseWs_mem h with h | h
        · exact Or.inl (by simp [List.mem_cons.mp h])
        · exact Or.inr h

theorem collapseWs_spaceOnly : ∀ {l : Str} {c : Char},
    c ∈ collapseWs l → isSpaceC c = true → c = ' '
  | [], c => by simp [collapseWs]
  | [d], c => by
    by_cases h : isSpaceC d = true
    · simp only [collapseWs, h, if_true]
      intro hm _
      exact List.mem_singleton.mp hm
    · simp only [collapseWs, h, if_false]
      intro hm hs
      rw [List.mem_singleton.mp hm] at hs
      exact absurd hs (by simp [h])
  | a :: b :: rest, c => by
    by_cases ha : isSpaceC a = true
    · by_cases hb : isSpaceC b = true
      · rw [show collapseWs (a :: b :: rest) = collapseWs (b :: rest) by
          simp [collapseWs, ha, hb]]
        exact collapseWs_spaceOnly
      · rw [show collapseWs (a :: b :: rest) = ' ' :: collapseWs (b :: rest) by
          simp [collapseWs, ha, hb]]
        intro h hs
        rcases List.mem_cons.mp h with h | h
        · exact h
        · exact collapseWs_spaceOnly h hs
    · rw [show collapseWs (a :: b :: rest) = a :: collapseWs (b :: rest) by
        simp [collapseWs, ha]]
      intro h hs
      rcases List.mem_cons.mp h with h | h
      · rw [h] at hs
        exact absurd hs (by simp [ha])
      · exact collapseWs_spaceOnly h hs

theorem collapseWs_head_of_ne {d : Char} {r : Str}
    (hd : isSpaceC d = false) :
    ∃ t, collapseWs (d :: r) = d :: t := by
  cases r with
  | nil => exact ⟨[], by simp [collapseWs, hd]⟩
  | cons e t' => exact ⟨collapseWs (e :: t'), by simp [collapseWs, hd]⟩

theorem noTwoSpaces_collapseWs : ∀ (l : Str), noTwoSpaces (collapseWs l)
  | [] => trivial
  | [d] => by
    by_cases h : isSpaceC d = true <;> simp [collapseWs, h, noTwoSpaces]
  | a :: b :: rest => by
    by_cases ha : isSpaceC a = true
    · by_cases hb : isSpaceC b = true
      · rw [show collapseWs (a :: b :: rest) = collapseWs (b :: rest) by
          simp [collapseWs, ha, hb]]
        exact noTwoSpaces_collapseWs (b :: rest)
      · rw [show collapseWs (a :: b :: rest) = ' ' :: collapseWs (b :: rest) by
          simp [collapseWs, ha, hb]]
        obtain ⟨t, ht⟩ := collapseWs_head_of_ne (r := rest) (by simp [hb] : isSpaceC b = false)
        rw [ht]
        refine ⟨fun hc => absurd hc.2 hb, ?_⟩
        · rw [← ht]
          exact noTwoSpaces_collapseWs (b :: rest)
    · rw [show collapseWs (a :: b :: rest) = a :: collapseWs (b :: rest) by
        simp [collapseWs, ha]]
      cases h2 : collapseWs (b :: rest) with
      | nil => trivial
      | cons x t =>
        refine ⟨fun hc => absurd hc.1 (by simp [ha]), ?_⟩
        rw [← h2]
        exact noTwoSpaces_collapseWs (b :: rest)

theorem noTwoSpaces_tail : ∀ {a : Char} {v : Str},
    noTwoSpaces (a :: v) → noTwoSpaces v
  | _, [], _ => trivial
  | _, _ :: _, h => h.2

theorem noTwoSpaces_append_right : ∀ {u v : Str},
    noTwoSpaces (u ++ v) → noTwoSpaces v
  | [], _, h => h
  | [a], _, h => noTwoSpaces_tail (a := a) h
  | _ :: b :: u', _, h => noTwoSpaces_append_right (u := b :: u') h.2

theorem noTwoSpaces_append_left : ∀ {u v : Str},
    noTwoSpaces (u ++ v) → noTwoSpaces u
  | [], _, _ => trivial
  | [_], _, _ => trivial
  | _ :: b :: u', _, h => ⟨h.1, noTwoSpaces_append_left (u := b :: u') h.2⟩

theorem noTwoSpaces_pyStrip {l : Str} (h : noTwoSpaces l) :
    noTwoSpaces (pyStrip l) := by
  unfold pyStrip
  obtain ⟨u, hu⟩ := List.dropWhile_suffix (l := l) isSpaceC
  have hA : noTwoSpaces (l.dropWhile isSpaceC) :=
    noTwoSpaces_append_right (by rw [hu]; exact h)
  obtain ⟨w, hw⟩ := List.dropWhile_suffix (l := (l.dropWhile isSpaceC).reverse) isSpaceC
  have hsplit : l.dropWhile isSpaceC =
      ((l.dropWhile isSpaceC).reverse.dropWhile isSpaceC).reverse ++ w.reverse := by
    rw [← List.reverse_append, hw, List.reverse_reverse]
  have h3 : noTwoSpaces
      (((l.dropWhile isSpaceC).reverse.dropWhile isSpaceC).reverse ++ w.reverse) := by
    rw [← hsplit]
    exact hA
  exact noTwoSpaces_append_left h3

theorem collapseWs_eq_self : ∀ {l : Str},
    (∀ c ∈ l, isSpaceC c = true → c = ' ') → noTwoSpaces l → collapseWs l = l
  | [], _, _ => rfl
  | [c], hso, _ => by
    by_cases h : isSpaceC c = true
    · rw [show collapseWs [c] = [' '] by simp [collapseWs, h],
        hso c (by simp) h]
    · simp [collapseWs, h]
  | a :: b :: rest, hso, hnt => by
    by_cases ha : isSpaceC a = true
    · have hb : isSpaceC b = false := by
        cases hbe : isSpaceC b
        · rfl
        · exact absurd ⟨ha, hbe⟩ hnt.1
      rw [show collapseWs (a :: b :: rest) = ' ' :: collapseWs (b :: rest) by
        simp [collapseWs, ha, hb]]
      rw [collapseWs_eq_self (fun c hc => hso c (by simp [hc])) hnt.2,
        show (' ' : Char) = a from (hso a (by simp) ha).symm]
    · rw [show collapseWs (a :: b :: rest) = a :: collapseWs (b :: rest) by
        simp [collapseWs, ha]]
      rw [collapseWs_eq_self (fun c hc => hso c (by simp [hc])) hnt.2]

theorem removePunct_eq_self {l : Str}
    (h : ∀ c ∈ l, (c == '-' || c == '.' || c == '_') = false) :
    removePunct l = l := by
  unfold removePunct
  rw [List.filter_eq_self]
  intro a ha
  simp [h a ha]

theorem mem_removePunct {l : Str} {c : Char} (h : c ∈ removePunct l) :
    c ∈ l ∧ (c == '-' || c == '.' || c == '_') = false := by
  unfold removePunct at h
  have := List.mem_filter.mp h
  exact ⟨this.1, by simpa using this.2⟩

theorem normalize_props (q : Str) :
    (∀ c ∈ ServiceMatcher.normalize_service_name q, asciiLower c = c) ∧
    (∀ c ∈ ServiceMatcher.normalize_service_name q,
      (c == '-' || c == '.' || c == '_') = false) ∧
    (∀ c ∈ ServiceMatcher.normalize_service_name q,
      isSpaceC c = true → c = ' ') ∧
    noTwoSpaces (ServiceMatcher.normalize_service_name q) ∧
    pyStrip (ServiceMatcher.normalize_service_name q) =
      ServiceMatcher.normalize_service_name q := by
  cases q with
  | nil =>
    refine ⟨?_, ?_, ?_, trivial, rfl⟩ <;> intro c hc <;>
      simp [ServiceMatcher.normalize_service_name] at hc
  | cons a t =>
    have hn : ServiceMatcher.normalize_service_name (a :: t) =
        pyStrip (collapseWs (removePunct ((a :: t).map asciiLower))) := by
      simp [ServiceMatcher.normalize_service_name]
    rw [hn]
    refine ⟨?_, ?_, ?_, ?_, pyStrip_idem _⟩
    · intro c hc
      rcases collapseWs_mem (mem_pyStrip hc) with h | h
      · obtain ⟨x, _, rfl⟩ := List.mem_map.mp (mem_removePunct h).1
        exact asciiLower_idem x
      · rw [h]
        decide
    · intro c hc
      rcases collapseWs_mem (mem_pyStrip hc) with h | h
      · exact (mem_removePunct h).2
      · rw [h]
        decide
    · intro c hc
      exact collapseWs_spaceOnly (mem_pyStrip hc)
    · exact noTwoSpaces_pyStrip (noTwoSpaces_collapseWs _)

theorem normalize_eq_spec (l : Str) :
    ServiceMatcher.normalize_service_name l = specNormalizeName l := by
  cases l with
  | nil => rfl
  | cons c t => rfl

theorem lower_eq_norm {x q : Str}
    (h : x.map asciiLower = ServiceMatcher.normalize_service_name q) :
    ServiceMatcher.normalize_service_name x =
      ServiceMatcher.normalize_service_name q := by
  obtain ⟨hlf, hnp, hso, hnt, hstr⟩ := normalize_props q
  cases x with
  | nil =>
    rw [show ServiceMatcher.normalize_service_name ([] : Str) = [] from rfl, ← h]
    rfl
  | cons a t =>
    have hn : ServiceMatcher.normalize_service_name (a :: t) =
        pyStrip (collapseWs (removePunct ((a :: t).map asciiLower))) := by
      simp [ServiceMatcher.normalize_service_name]
    rw [hn, h, removePunct_eq_self hnp, collapseWs_eq_self hso hnt, hstr]

theorem is_match_eq_spec (q : Str) (s : ShippingServiceM) :
    ServiceMatcher.is_match (ServiceMatcher.normalize_service_name q) s =
      specMatches q s := by
  obtain ⟨hlf, _, _, _, hstr⟩ := normalize_props q
  have hql : (ServiceMatcher.normalize_service_name q).map asciiLower =
      ServiceMatcher.normalize_service_name q := map_eq_self_of_fix hlf
  have hspec : ∀ y : Str, specNormalizeName y =
      ServiceMatcher.normalize_service_name y :=
    fun y => (normalize_eq_spec y).symm
  rw [Bool.eq_iff_iff]
  constructor
  · intro h
    rcases (Bool.or_eq_true _ _).mp h with h | h
    · rcases (Bool.or_eq_true _ _).mp h with h | h
      · simp only [ShippingServiceM.is_service_match] at h
        rw [hstr, hql] at h
        rcases (Bool.or_eq_true _ _).mp h with h | h
        · have hn := lower_eq_norm (beq_iff_eq.mp h)
          unfold specMatches
          rw [Bool.or_eq_true, hspec, hspec]
          exact Or.inl (beq_iff_eq.mpr hn)
        · obtain ⟨v, hv, hveq⟩ := List.any_eq_true.mp h
          have hn := lower_eq_norm (beq_iff_eq.mp hveq)
          unfold specMatches
          rw [Bool.or_eq_true]
          refine Or.inr (List.any_eq_true.mpr ⟨v, hv, ?_⟩)
          rw [hspec, hspec]
          exact beq_iff_eq.mpr hn
      · unfold specMatches
        rw [Bool.or_eq_true, hspec, hspec]
        exact Or.inl h
    · unfold specMatches
      rw [Bool.or_eq_true]
      obtain ⟨v, hv, hveq⟩ := List.any_eq_true.mp h
      refine Or.inr (List.any_eq_true.mpr ⟨v, hv, ?_⟩)
      rw [hspec, hspec]
      exact hveq
  · intro h
    unfold specMatches at h
    rw [Bool.or_eq_true] at h
    unfold ServiceMatcher.is_match
    rw [Bool.or_eq_true, Bool.or_eq_true]
    rcases h with h | h
    · rw [hspec, hspec] at h
      exact Or.inl (Or.inr h)
    · obtain ⟨v, hv, hveq⟩ := List.any_eq_true.mp h
      refine Or.inr (List.any_eq_true.mpr ⟨v, hv, ?_⟩)
      rw [hspec, hspec] at hveq
      exact hveq

/-- C9: `match_service` normalizes the query and returns the first
candidate, in list order, whose normalized canonical name or any normalized
alias equals the normalized query (`None` when no candidate matches); the
extra lower-case comparison the code routes through
`ShippingService.is_service_match` accepts nothing beyond that equality, so
no fuzzy or partial matching is ever applied.  `specMatches` is the spec's
wording of the predicate; `List.find?` captures first-match-in-order. -/
theorem claim_c9_matcher (query_service : Str)
    (available_services : List ShippingServiceM) :
    ServiceMatcher.match_service query_service available_services =
      available_services.find? (specMatches query_service) := by
  simp only [ServiceMatcher.match_service]
  have hfun : ServiceMatcher.is_match
      (ServiceMatcher.normalize_service_name query_service) =
      specMatches query_service :=
    funext (fun s => is_match_eq_spec query_service s)
  rw [hfun]
